import Mathlib

/-!
Verification of the translation engine of `sanity-plugin-translate`.

The development shallowly embeds the collector / codec / rewriter pipeline of
`src/api/service/TranslationService.ts` and `src/api/utils/blockContentUtils/*`
over a JSON-like value type.  JavaScript objects are modelled as association
lists in insertion order (JS object keys are unique, and `Object.entries`
iterates in insertion order), arrays as lists, and the global
`blockContentMap` plus the `uuid()` generator as explicitly threaded state
(`uuid()` is modelled as a fresh-key counter producing keys `"uuid-<n>"`).

JavaScript `null` is kept as a value constructor.  The source throws a
`TypeError` in a few collector corners when it meets `null` (e.g. accessing
`object[key]` on a `null` field in `processNestedBlockContent`, or
`block._type` on a `null` array member in `processBlockContent`); those arms
are modelled as no-ops and every general theorem about the collector assumes
`nullFree`, so the modelled behaviour on such inputs is never relied upon.
-/

inductive JValue where
  | str (s : String)
  | num (n : Int)
  | bool (b : Bool)
  | null
  | arr (xs : List JValue)
  | obj (fields : List (String × JValue))
  deriving Repr

/-- Lookup of an object property (`v[k]`); `none` models `undefined`.
Non-objects (including arrays looked up by a non-index key) yield `none`;
array numeric indexing is modelled separately where the source relies on it. -/
def JValue.getField (v : JValue) (k : String) : Option JValue :=
  match v with
  | .obj fs => (fs.find? (fun p => p.1 == k)).map (·.2)
  | _ => none

/-- Property access that is used as a string (`typeof v[k] === 'string'` guards). -/
def JValue.getStr (v : JValue) (k : String) : Option String :=
  match v.getField k with
  | some (.str s) => some s
  | _ => none

mutual

/-- Predicate for a value that contains no `null` anywhere.  The
source can throw on `null` members (see the module comment), so collector
theorems quantify over `nullFree` trees. -/
def nullFree : JValue → Bool
  | .null => false
  | .arr xs => nullFreeList xs
  | .obj fs => nullFreeFields fs
  | _ => true

def nullFreeList : List JValue → Bool
  | [] => true
  | x :: r => nullFree x && nullFreeList r

def nullFreeFields : List (String × JValue) → Bool
  | [] => true
  | (_, v) :: r => nullFree v && nullFreeFields r

end

/-- Path joining used throughout the source: `path ? path + '.' + key : key`. -/
def joinPath (path key : String) : String :=
  if path = "" then key else path ++ "." ++ key

/-! ## JS string builtins

Several JS string builtins (`trim`, `toLowerCase` / `toUpperCase`,
`startsWith` / `endsWith`, numeric index parsing) are modelled over the
character list so that they evaluate inside the kernel.  Whitespace is the
common ASCII set plus NBSP and the BOM (`trim` on exotic Unicode separators
is outside the scope of the theorems); case mapping is ASCII (the documents
in the theorems are ASCII). -/

def isJsWs (c : Char) : Bool :=
  c = ' ' || c = '\t' || c = '\n' || c = '\r' || c = '\x0b' || c = '\x0c' ||
  c = '\u00a0' || c = '\ufeff'

def jsTrim (s : String) : String :=
  String.mk (((s.data.dropWhile isJsWs).reverse.dropWhile isJsWs).reverse)

def jsStartsWith (s pre : String) : Bool :=
  pre.data.isPrefixOf s.data

def jsEndsWith (s suf : String) : Bool :=
  suf.data.isSuffixOf s.data

def asciiToLowerChar (c : Char) : Char :=
  if 'A' ≤ c && c ≤ 'Z' then Char.ofNat (c.toNat + 32) else c

def asciiToUpperChar (c : Char) : Char :=
  if 'a' ≤ c && c ≤ 'z' then Char.ofNat (c.toNat - 32) else c

def jsToLower (s : String) : String :=
  String.mk (s.data.map asciiToLowerChar)

def jsToUpper (s : String) : String :=
  String.mk (s.data.map asciiToUpperChar)

/-- Canonical decimal parse for an array index key. -/
def decimalNatGo : List Char → Nat → Bool → Option Nat
  | [], acc, started => if started then some acc else none
  | c :: rest, acc, _ =>
    if c.isDigit then decimalNatGo rest (acc * 10 + (c.toNat - 48)) true
    else none

def decimalNat? (s : String) : Option Nat :=
  decimalNatGo s.data 0 false

/-! ## blockContentTypes.ts -/

def BLOCK_CONTENT_TYPE : String := "block"

def SPAN_TYPE : String := "span"

def HEADER_STYLES : List String := ["h1", "h2", "h3", "h4", "h5", "h6"]

/-- Map from HTML tags to Sanity marks (`HTML_TO_MARK_MAP`), in the source's
object-literal insertion order. -/
def HTML_TO_MARK_MAP : List (String × String) :=
  [("strong", "strong"), ("b", "strong"), ("em", "em"), ("i", "em"),
   ("u", "underline"), ("s", "strike-through"), ("code", "code"),
   ("primary", "primary"), ("secondary", "secondary")]

/-- Entry of `blockContentMap` (`BlockContentMapItem`). -/
structure BlockContentMapItem where
  fieldName : String
  blockIndex : Nat
  context : Option String := none
  isHeader : Bool
  arrayPath : String
  isHtml : Bool := false
  deriving Repr, DecidableEq

/-- Entry of `fieldsToTranslate` (`{key, value, context?, isHtml?}`). -/
structure FieldToTranslate where
  key : String
  value : String
  context : Option String := none
  isHtml : Bool := false
  deriving Repr, DecidableEq

/-- Per-block info collected by the first pass of `processBlockContent`
(`BlockInfo`). -/
structure BlockInfo where
  text : String
  isNormal : Bool
  isHeader : Bool
  deriving Repr, DecidableEq

/-! ## blockContentDetection.ts -/

/-- Truthiness of `x && x.length > 0` for a property value, as used by
`shouldUseHtmlForBlock` (`marks`/`markDefs` checks).  Arrays and strings have
a `length`; everything else compares `undefined > 0`, which is false. -/
def lengthPositive : Option JValue → Bool
  | some (.arr xs) => xs.length > 0
  | some (.str s) => s.length > 0
  | _ => false

/-- Detects if an array is Sanity block content (`isBlockContent`). -/
def isBlockContent (array : JValue) : Bool :=
  match array with
  | .arr items =>
    if items.length = 0 then false
    else
      let hasBlock := items.any (fun item =>
        item.getStr "_type" == some BLOCK_CONTENT_TYPE)
      if !hasBlock then false
      else
        items.any (fun item =>
          (item.getStr "_type" == some BLOCK_CONTENT_TYPE) &&
          match item.getField "children" with
          | some (.arr children) =>
            children.any (fun child => child.getStr "_type" == some SPAN_TYPE)
          | _ => false)
  | _ => false

/-- Helper to check if a child is a valid span with text (`isValidSpan`):
`child && child._type === SPAN_TYPE && typeof child.text === 'string'`. -/
def isValidSpan (child : JValue) : Bool :=
  (child.getStr "_type" == some SPAN_TYPE) && (child.getStr "text").isSome

/-- Check if a block should use HTML translation (`shouldUseHtmlForBlock`). -/
def shouldUseHtmlForBlock (block : JValue) : Bool :=
  match block.getField "children" with
  | some (.arr children) =>
    if block.getStr "_type" != some BLOCK_CONTENT_TYPE then false
    else
      let hasMarks := children.any (fun child =>
        lengthPositive (child.getField "marks"))
      let hasMarkDefs := lengthPositive (block.getField "markDefs")
      let hasMultipleChildren := children.length > 1
      hasMarks || hasMarkDefs || hasMultipleChildren
  | _ => false

/-! ## blockContentContext.ts -/

/-- Lookup in a `Map<number, BlockInfo>` modelled as an association list. -/
def blockInfoGet (m : List (Nat × BlockInfo)) (i : Nat) : Option BlockInfo :=
  (m.find? (fun p => p.1 == i)).map (·.2)

/-- Loop body of `findContextForHeaderBlock`, indexed by the number of
remaining indices of the `for (i = start; i < len; i++)` loop. -/
def findContextScanGo (m : List (Nat × BlockInfo)) (i : Nat) :
    Nat → Option String
  | 0 => none
  | remaining + 1 =>
    match blockInfoGet m i with
    | some info => if info.isNormal then some info.text
                   else findContextScanGo m (i + 1) remaining
    | none => findContextScanGo m (i + 1) remaining

/-- Scanning loop of `findContextForHeaderBlock`: `for (i = start; i < len; i++)`,
returning the text of the first entry with `isNormal`. -/
def findContextScan (m : List (Nat × BlockInfo)) (start len : Nat) :
    Option String :=
  findContextScanGo m start (len - start)

/-- Context lookup for header blocks (`findContextForHeaderBlock`).  The
source only uses `nestedArray.length`, so the model takes the length. -/
def findContextForHeaderBlock (arrayLength : Nat)
    (blockContextMap : List (Nat × BlockInfo)) (blockIndex : Nat) :
    Option String :=
  findContextScan blockContextMap (blockIndex + 1) arrayLength

/-! ## String and scanner utilities

The decode side of the codec (`blockContentHtml.ts`) works with JavaScript
regular expressions.  Each regex of the source is modelled by a dedicated
scanner over `List Char` that reproduces the semantics of the repeated
`exec` loop: try a match at each position from left to right, and continue
after the end of a successful match.  Scanners take the input length as
structural fuel (each step consumes at least one character, so fuel equal to
the input length is enough). -/

/-- Drop everything up to and including the first occurrence of `target`;
`none` when `target` does not occur. -/
def afterChar (target : Char) : List Char → Option (List Char)
  | [] => none
  | c :: rest => if c = target then some rest else afterChar target rest

/-- Model of `html.replace(/<[^>]*>/g, '')`: delete every maximal `<...>`
region (a `<` with no later `>` stays, as the regex cannot match it). -/
def stripTagsGo : Nat → List Char → List Char
  | 0, cs => cs
  | _ + 1, [] => []
  | fuel + 1, c :: rest =>
    if c = '<' then
      match afterChar '>' rest with
      | some after => stripTagsGo fuel after
      | none => c :: stripTagsGo fuel rest
    else c :: stripTagsGo fuel rest

def stripTags (s : String) : String :=
  String.mk (stripTagsGo s.data.length s.data)

/-- First index `≥ start` at which `needle` occurs in `hay`
(JS `hay.indexOf(needle, start)`); `none` models `-1`. -/
def indexOfFromAux (needle : List Char) : List Char → Nat → Nat → Option Nat
  | [], pos, start =>
    if needle.isEmpty && start ≤ pos then some pos else none
  | c :: rest, pos, start =>
    if start ≤ pos && needle.isPrefixOf (c :: rest) then some pos
    else indexOfFromAux needle rest (pos + 1) start

def indexOfFrom (hay needle : List Char) (start : Nat) : Option Nat :=
  indexOfFromAux needle hay 0 start

/-- Right-most index at which `needle` occurs as a prefix of a suffix of
`hay` (used to model the backtracking of a greedy `[^>]*` before a literal). -/
def lastIndexOfAux (needle : List Char) : List Char → Nat → Option Nat → Option Nat
  | [], _, best => best
  | c :: rest, pos, best =>
    let best' := if needle.isPrefixOf (c :: rest) then some pos else best
    lastIndexOfAux needle rest (pos + 1) best'

def lastIndexOf (hay needle : List Char) : Option Nat :=
  lastIndexOfAux needle hay 0 none

/-- A text segment extracted from HTML (`TextSegment`). -/
structure TextSegment where
  text : String
  marks : List String
  startIndex : Nat
  endIndex : Nat
  deriving Repr, DecidableEq

/-- Attempt of `<tag[^>]*>([^<]*)</tag>` at the head of `cs`; returns the
captured content and the total match length.  The regex is deterministic:
the attribute run ends at the first `>`, the content run at the first `<`,
which must start the literal closing tag. -/
def attemptTagAt (tag : List Char) (cs : List Char) : Option (String × Nat) :=
  match cs with
  | '<' :: rest =>
    if tag.isPrefixOf rest then
      let afterName := rest.drop tag.length
      let attrs := afterName.takeWhile (· ≠ '>')
      match afterName.drop attrs.length with
      | '>' :: rest2 =>
        let content := rest2.takeWhile (· ≠ '<')
        let rest3 := rest2.drop content.length
        let closing := '<' :: '/' :: (tag ++ ['>'])
        if closing.isPrefixOf rest3 then
          some (String.mk content,
            1 + tag.length + attrs.length + 1 + content.length + closing.length)
        else none
      | _ => none
    else none
  | _ => none

/-- Scanner for the repeated `exec` loop of `<tag[^>]*>([^<]*)</tag>` with a
fixed mark attached to every captured segment.  An empty capture is skipped
(`if (content)` in the source) but still advances past the match. -/
def scanTagGo (tag : List Char) (mark : String) :
    Nat → List Char → Nat → List TextSegment
  | 0, _, _ => []
  | _ + 1, [], _ => []
  | fuel + 1, c :: rest, i =>
    match attemptTagAt tag (c :: rest) with
    | some (content, len) =>
      if content ≠ "" then
        ⟨content, [mark], i, i + len⟩ :: scanTagGo tag mark fuel ((c :: rest).drop len) (i + len)
      else scanTagGo tag mark fuel ((c :: rest).drop len) (i + len)
    | none => scanTagGo tag mark fuel rest (i + 1)

/-- Attempt of an attribute-capturing tag regex
`<name[^>]*attr="([^"]*)"[^>]*>([^<]*)</name>` at the head of `cs`.
The greedy backtracking of the first `[^>]*` is modelled by taking the
right-most occurrence of the attribute literal before the first `>`;
this coincides with the JS regex whenever the attribute values of the tag
contain neither `"` nor `>` (always the case for the markup produced by
`convertBlockToHtml` on the inputs considered in the theorems below). -/
def attemptAttrTagAt (name attrLit : List Char) (cs : List Char) :
    Option (String × String × Nat) :=
  match cs with
  | '<' :: rest =>
    if name.isPrefixOf rest then
      let afterName := rest.drop name.length
      let pre := afterName.takeWhile (· ≠ '>')
      match lastIndexOf pre attrLit with
      | some p =>
        let afterLit := afterName.drop (p + attrLit.length)
        let captured := afterLit.takeWhile (· ≠ '"')
        match afterLit.drop captured.length with
        | '"' :: rest2 =>
          let attrs2 := rest2.takeWhile (· ≠ '>')
          match rest2.drop attrs2.length with
          | '>' :: rest3 =>
            let content := rest3.takeWhile (· ≠ '<')
            let rest4 := rest3.drop content.length
            let closing := '<' :: '/' :: (name ++ ['>'])
            if closing.isPrefixOf rest4 then
              let len := 1 + name.length + p + attrLit.length + captured.length + 1 +
                attrs2.length + 1 + content.length + closing.length
              some (String.mk captured, String.mk content, len)
            else none
          | _ => none
        | _ => none
      | none => none
    else none
  | _ => none

/-- Scanner loop for an attribute-capturing regex; a segment is pushed only
when both the captured attribute and the content are non-empty
(`if (markDefKey && linkText)` / `if (markName && content)`). -/
def scanAttrTagGo (name attrLit : List Char) :
    Nat → List Char → Nat → List TextSegment
  | 0, _, _ => []
  | _ + 1, [], _ => []
  | fuel + 1, c :: rest, i =>
    match attemptAttrTagAt name attrLit (c :: rest) with
    | some (captured, content, len) =>
      if captured ≠ "" && content ≠ "" then
        ⟨content, [captured], i, i + len⟩ ::
          scanAttrTagGo name attrLit fuel ((c :: rest).drop len) (i + len)
      else scanAttrTagGo name attrLit fuel ((c :: rest).drop len) (i + len)
    | none => scanAttrTagGo name attrLit fuel rest (i + 1)

/-- Stable insertion sort by `startIndex`, modelling the (stable) JS
`segments.sort((a, b) => a.startIndex - b.startIndex)`. -/
def insertSegment (s : TextSegment) : List TextSegment → List TextSegment
  | [] => [s]
  | t :: rest =>
    if t.startIndex ≤ s.startIndex then t :: insertSegment s rest
    else s :: t :: rest

def sortSegments : List TextSegment → List TextSegment
  | [] => []
  | s :: rest => insertSegment s (sortSegments rest)

/-- Capture of the first match of `/attr="([^"]*)"/` (used for the
`data-block-key`, `data-block-style` and `data-markdefs` attributes).
The source uses the `i` flag; the markup produced by the encoder is already
lower-case, so a case-sensitive search is modelled. -/
def firstAttrCapture (attrLit : List Char) : List Char → Option String
  | [] => none
  | c :: rest =>
    if attrLit.isPrefixOf (c :: rest) then
      let afterLit := (c :: rest).drop attrLit.length
      let captured := afterLit.takeWhile (· ≠ '"')
      match afterLit.drop captured.length with
      | '"' :: _ => some (String.mk captured)
      | _ => none
    else firstAttrCapture attrLit rest

/-! ## JSON and URI encoding helpers

`convertBlockToHtml` serializes `markDefs` with
`encodeURIComponent(JSON.stringify(markDefs))` and `parseHtmlToBlockStructure`
reads them back with `JSON.parse(decodeURIComponent(...))`.  The JS builtins
are modelled below. -/

/-- JSON string escaping for `JSON.stringify` of a string value. -/
def jsonEscapeChar (c : Char) : String :=
  if c = '"' then "\\\""
  else if c = '\\' then "\\\\"
  else if c = '\n' then "\\n"
  else if c = '\r' then "\\r"
  else if c = '\t' then "\\t"
  else String.mk [c]

def jsonQuote (s : String) : String :=
  "\"" ++ String.join (s.data.map jsonEscapeChar) ++ "\""

mutual

/-- Model of `JSON.stringify` on the JSON fragment of JS values. -/
def jstringify : JValue → String
  | .str s => jsonQuote s
  | .num n => toString n
  | .bool b => if b then "true" else "false"
  | .null => "null"
  | .arr xs => "[" ++ jstringifyList xs ++ "]"
  | .obj fs => "\x7b" ++ jstringifyFields fs ++ "\x7d"

def jstringifyList : List JValue → String
  | [] => ""
  | [x] => jstringify x
  | x :: rest => jstringify x ++ "," ++ jstringifyList rest

def jstringifyFields : List (String × JValue) → String
  | [] => ""
  | [(k, v)] => jsonQuote k ++ ":" ++ jstringify v
  | (k, v) :: rest => jsonQuote k ++ ":" ++ jstringify v ++ "," ++ jstringifyFields rest

end

def hexDigit (n : Nat) : Char :=
  if n < 10 then Char.ofNat (48 + n) else Char.ofNat (55 + n)

/-- UTF-8 bytes of a character. -/
def utf8Bytes (c : Char) : List Nat :=
  let n := c.toNat
  if n < 0x80 then [n]
  else if n < 0x800 then
    [0xC0 + n / 0x40, 0x80 + n % 0x40]
  else if n < 0x10000 then
    [0xE0 + n / 0x1000, 0x80 + (n / 0x40) % 0x40, 0x80 + n % 0x40]
  else
    [0xF0 + n / 0x40000, 0x80 + (n / 0x1000) % 0x40, 0x80 + (n / 0x40) % 0x40,
     0x80 + n % 0x40]

/-- Characters that `encodeURIComponent` leaves unescaped. -/
def uriUnescaped (c : Char) : Bool :=
  c.isAlphanum || c ∈ (['-', '_', '.', '!', '~', '*', '\'', '(', ')'] : List Char)

def encodeURIComponent (s : String) : String :=
  String.join (s.data.map (fun c =>
    if uriUnescaped c then String.mk [c]
    else String.join ((utf8Bytes c).map (fun b =>
      String.mk ['%', hexDigit (b / 16), hexDigit (b % 16)]))))

def hexVal (c : Char) : Option Nat :=
  if '0' ≤ c && c ≤ '9' then some (c.toNat - 48)
  else if 'A' ≤ c && c ≤ 'F' then some (c.toNat - 55)
  else if 'a' ≤ c && c ≤ 'f' then some (c.toNat - 87)
  else none

/-- Percent-decoding into a byte list (failure models the `URIError`). -/
def percentDecode : List Char → Option (List Nat)
  | [] => some []
  | '%' :: h :: l :: rest => do
    let hv ← hexVal h
    let lv ← hexVal l
    let tail ← percentDecode rest
    pure ((hv * 16 + lv) :: tail)
  | '%' :: _ => none
  | c :: rest => do
    let tail ← percentDecode rest
    pure (utf8Bytes c ++ tail)

/-- UTF-8 decoding of a byte list, with the byte count as structural fuel. -/
def utf8DecodeGo : Nat → List Nat → Option (List Char)
  | _, [] => some []
  | 0, _ => none
  | fuel + 1, b :: rest =>
    if b < 0x80 then do
      let tail ← utf8DecodeGo fuel rest
      pure (Char.ofNat b :: tail)
    else if 0xC0 ≤ b && b < 0xE0 then
      match rest with
      | b2 :: rest2 =>
        if 0x80 ≤ b2 && b2 < 0xC0 then do
          let tail ← utf8DecodeGo fuel rest2
          pure (Char.ofNat ((b - 0xC0) * 0x40 + (b2 - 0x80)) :: tail)
        else none
      | _ => none
    else if 0xE0 ≤ b && b < 0xF0 then
      match rest with
      | b2 :: b3 :: rest2 =>
        if 0x80 ≤ b2 && b2 < 0xC0 && 0x80 ≤ b3 && b3 < 0xC0 then do
          let tail ← utf8DecodeGo fuel rest2
          pure (Char.ofNat ((b - 0xE0) * 0x1000 + (b2 - 0x80) * 0x40 + (b3 - 0x80)) :: tail)
        else none
      | _ => none
    else if 0xF0 ≤ b && b < 0xF8 then
      match rest with
      | b2 :: b3 :: b4 :: rest2 =>
        if 0x80 ≤ b2 && b2 < 0xC0 && 0x80 ≤ b3 && b3 < 0xC0 && 0x80 ≤ b4 && b4 < 0xC0 then do
          let tail ← utf8DecodeGo fuel rest2
          pure (Char.ofNat ((b - 0xF0) * 0x40000 + (b2 - 0x80) * 0x1000 +
            (b3 - 0x80) * 0x40 + (b4 - 0x80)) :: tail)
        else none
      | _ => none
    else none

def decodeURIComponent (s : String) : Option String := do
  let bytes ← percentDecode s.data
  let chars ← utf8DecodeGo bytes.length bytes
  pure (String.mk chars)

/-- Skip JSON whitespace. -/
def jskipWs : List Char → List Char
  | c :: rest =>
    if c = ' ' || c = '\n' || c = '\t' || c = '\r' then jskipWs rest else c :: rest
  | [] => []

/-- JSON string body after the opening quote. -/
def jparseStr : List Char → Option (String × List Char)
  | [] => none
  | c :: rest =>
    if c = '"' then some ("", rest)
    else if c = '\\' then
      match rest with
      | e :: rest2 =>
        let decoded : Option Char :=
          if e = '"' then some '"'
          else if e = '\\' then some '\\'
          else if e = '/' then some '/'
          else if e = 'n' then some '\n'
          else if e = 't' then some '\t'
          else if e = 'r' then some '\r'
          else none
        match decoded with
        | some d =>
          match jparseStr rest2 with
          | some (s, rest3) => some (String.mk (d :: s.data), rest3)
          | none => none
        | none => none
      | [] => none
    else
      match jparseStr rest with
      | some (s, rest2) => some (String.mk (c :: s.data), rest2)
      | none => none

def jparseNumDigits : List Char → Nat → Bool → Option (Nat × List Char)
  | [], acc, started => if started then some (acc, []) else none
  | c :: rest, acc, started =>
    if c.isDigit then jparseNumDigits rest (acc * 10 + (c.toNat - 48)) true
    else if started then some (acc, c :: rest)
    else none

/-- Digits (with optional sign) of a JSON number; fractions are not needed by
the repository's data and are rejected as a parse failure. -/
def jparseNum (cs : List Char) : Option (JValue × List Char) :=
  match cs with
  | '-' :: rest =>
    match jparseNumDigits rest 0 false with
    | some (n, rest2) => some (.num (-(n : Int)), rest2)
    | none => none
  | _ =>
    match jparseNumDigits cs 0 false with
    | some (n, rest2) => some (.num (n : Int), rest2)
    | none => none

mutual

/-- Recursive-descent model of `JSON.parse`, with character-count fuel;
`none` models a thrown `SyntaxError`. -/
def jparseVal : Nat → List Char → Option (JValue × List Char)
  | 0, _ => none
  | fuel + 1, cs =>
    match jskipWs cs with
    | [] => none
    | c :: rest =>
      if c = 'n' then
        if ['u', 'l', 'l'].isPrefixOf rest then some (.null, rest.drop 3) else none
      else if c = 't' then
        if ['r', 'u', 'e'].isPrefixOf rest then some (.bool true, rest.drop 3) else none
      else if c = 'f' then
        if ['a', 'l', 's', 'e'].isPrefixOf rest then some (.bool false, rest.drop 4) else none
      else if c = '"' then
        match jparseStr rest with
        | some (s, rest2) => some (.str s, rest2)
        | none => none
      else if c = '[' then
        match jskipWs rest with
        | ']' :: rest2 => some (.arr [], rest2)
        | rest2 => jparseArr fuel rest2 []
      else if c = '\x7b' then
        match jskipWs rest with
        | '\x7d' :: rest2 => some (.obj [], rest2)
        | rest2 => jparseObj fuel rest2 []
      else
        jparseNum (c :: rest)

def jparseArr : Nat → List Char → List JValue → Option (JValue × List Char)
  | 0, _, _ => none
  | fuel + 1, cs, acc =>
    match jparseVal fuel cs with
    | some (v, rest) =>
      match jskipWs rest with
      | ',' :: rest2 => jparseArr fuel rest2 (acc ++ [v])
      | ']' :: rest2 => some (.arr (acc ++ [v]), rest2)
      | _ => none
    | none => none

def jparseObj : Nat → List Char → List (String × JValue) → Option (JValue × List Char)
  | 0, _, _ => none
  | fuel + 1, cs, acc =>
    match jskipWs cs with
    | '"' :: rest =>
      match jparseStr rest with
      | some (k, rest2) =>
        match jskipWs rest2 with
        | ':' :: rest3 =>
          match jparseVal fuel rest3 with
          | some (v, rest4) =>
            match jskipWs rest4 with
            | ',' :: rest5 => jparseObj fuel rest5 (acc ++ [(k, v)])
            | '\x7d' :: rest5 => some (.obj (acc ++ [(k, v)]), rest5)
            | _ => none
          | none => none
        | _ => none
      | none => none
    | _ => none

end

def jparse (s : String) : Option JValue :=
  match jparseVal (s.length + 1) s.data with
  | some (v, rest) => if jskipWs rest = [] then some v else none
  | none => none

/-! ## blockContentHtml.ts -/

/-- Fresh key from the threaded `uuid()` generator. -/
def uuidKey (n : Nat) : String := "uuid-" ++ toString n

/-- JS falsiness of a property value (`undefined`, `null`, `''`, `0`, `false`). -/
def jsFalsy : Option JValue → Bool
  | none => true
  | some .null => true
  | some (.str s) => s = ""
  | some (.bool b) => !b
  | some (.num n) => n = 0
  | _ => false

mutual

/-- Template-literal rendering of a JS value (`${v}`), used for the HTML
attribute values the encoder writes. -/
def jsTemplateStr : JValue → String
  | .str s => s
  | .num n => toString n
  | .bool b => if b then "true" else "false"
  | .null => "null"
  | .arr xs => jsTemplateStrList xs
  | .obj _ => "[object Object]"

def jsTemplateStrList : List JValue → String
  | [] => ""
  | [x] => jsTemplateStr x
  | x :: rest => jsTemplateStr x ++ "," ++ jsTemplateStrList rest

end

/-- HTML entity escaping applied by `@portabletext/to-html` to text nodes. -/
def escapeHtmlChar (c : Char) : String :=
  if c = '&' then "&amp;"
  else if c = '<' then "&lt;"
  else if c = '>' then "&gt;"
  else if c = '"' then "&quot;"
  else if c = '\'' then "&#x27;"
  else String.mk [c]

def escapeHtml (s : String) : String :=
  String.join (s.data.map escapeHtmlChar)

/-- Rendering of one mark around already-rendered children, following the
`marks` components of `convertBlockToHtml`: a mark that references a
`markDefs` entry renders as the anchor tag of that entry's `_type`
(`externalLink` / `internalLink` / `elementLink`, the generic `link`, or the
`unknownMark` span for unrecognized types); standard decorators map to
semantic tags; `primary` / `secondary` and unknown decorators map to a
`data-mark` span. -/
def renderMarkTag (markDefs : List JValue) (mark : String) (inner : String) : String :=
  match markDefs.find? (fun d => d.getStr "_key" == some mark) with
  | some d =>
    match d.getStr "_type" with
    | some "externalLink" =>
      let url := if jsFalsy (d.getField "url") then "#"
        else jsTemplateStr ((d.getField "url").getD .null)
      let blank := if jsFalsy (d.getField "blank") then "false"
        else jsTemplateStr ((d.getField "blank").getD .null)
      "<a href=\"" ++ url ++ "\" data-is-external=\"true\" data-blank=\"" ++ blank ++
        "\" data-markdef-key=\"" ++ mark ++ "\">" ++ inner ++ "</a>"
    | some "internalLink" =>
      let page := if jsFalsy (d.getField "page") then jstringify (.obj [])
        else jstringify ((d.getField "page").getD (.obj []))
      "<a href=\"#\" data-is-internal=\"true\" data-page=\"" ++ page ++
        "\" data-markdef-key=\"" ++ mark ++ "\">" ++ inner ++ "</a>"
    | some "elementLink" =>
      let slug := match d.getField "slug" with
        | some sl => if jsFalsy (sl.getField "current") then ""
            else jsTemplateStr ((sl.getField "current").getD .null)
        | none => ""
      "<a href=\"#" ++ slug ++ "\" data-is-element=\"true\" data-markdef-key=\"" ++
        mark ++ "\">" ++ inner ++ "</a>"
    | some "link" =>
      let href := if jsFalsy (d.getField "href") then "#"
        else jsTemplateStr ((d.getField "href").getD .null)
      let keyAttr := if jsFalsy (d.getField "_key") then mark
        else jsTemplateStr ((d.getField "_key").getD .null)
      "<a href=\"" ++ href ++ "\" data-markdef-key=\"" ++ keyAttr ++ "\">" ++ inner ++ "</a>"
    | _ =>
      "<span data-mark=\"" ++ mark ++ "\">" ++ inner ++ "</span>"
  | none =>
    if mark = "strong" then "<strong>" ++ inner ++ "</strong>"
    else if mark = "em" then "<em>" ++ inner ++ "</em>"
    else if mark = "underline" then "<u>" ++ inner ++ "</u>"
    else if mark = "strike-through" then "<s>" ++ inner ++ "</s>"
    else if mark = "code" then "<code>" ++ inner ++ "</code>"
    else "<span data-mark=\"" ++ mark ++ "\">" ++ inner ++ "</span>"

/-- Rendering of one child span: the escaped text nested inside its mark
tags.  `@portabletext/to-html` builds a mark tree over consecutive spans; the
per-span rendering below coincides with it whenever no two consecutive spans
share a mark (in particular on the single-mark and unmarked blocks used in
the theorems).  Non-span children (library `unknownType` handling) and list
item wrapping are outside the scope of the theorems and render as empty. -/
def renderSpanHtml (markDefs : List JValue) (child : JValue) : String :=
  if child.getStr "_type" == some SPAN_TYPE then
    match child.getStr "text" with
    | some t =>
      let marks := match child.getField "marks" with
        | some (.arr ms) => ms.filterMap (fun m =>
            match m with | JValue.str s => some s | _ => none)
        | _ => []
      marks.foldr (fun m acc => renderMarkTag markDefs m acc) (escapeHtml t)
    | none => ""
  else ""

/-- Model of `convertBlockToHtml`: the block-level tag carries the block key,
style and URL-encoded JSON `markDefs` as data attributes; styles outside
`normal`/`h1`..`h6` fall back to the library's plain `<p>` rendering (the
source registers no `unknownBlockStyle` component).  The `try/catch` fallback
of the source is unreachable in the model (the model never throws). -/
def convertBlockToHtml (block : JValue) : String :=
  let markDefsJson :=
    if jsFalsy (block.getField "markDefs") then ""
    else encodeURIComponent (jstringify ((block.getField "markDefs").getD .null))
  let markDefsList := match block.getField "markDefs" with
    | some (.arr ds) => ds
    | _ => []
  let inner := match block.getField "children" with
    | some (.arr cs) => String.join (cs.map (renderSpanHtml markDefsList))
    | _ => ""
  let style := match block.getField "style" with
    | some (.str s) => s
    | some v => if jsFalsy (some v) then "normal" else jsTemplateStr v
    | none => "normal"
  let key := match block.getField "_key" with
    | some v => jsTemplateStr v
    | none => "undefined"
  if style = "normal" || style ∈ HEADER_STYLES then
    let tag := if style = "normal" then "p" else style
    "<" ++ tag ++ " data-block-key=\"" ++ key ++ "\" data-block-style=\"" ++ style ++
      "\" data-markdefs=\"" ++ markDefsJson ++ "\">" ++ inner ++ "</" ++ tag ++ ">"
  else
    "<p>" ++ inner ++ "</p>"

/-- Extraction of marked text segments from HTML (`extractSegmentsFromHtml`):
anchor tags with a `data-markdef-key`, the standard mark tags of
`HTML_TO_MARK_MAP`, and `data-mark` spans, stably sorted by start index. -/
def extractSegmentsFromHtml (html : String) : List TextSegment :=
  let cs := html.data
  let linkSegs := scanAttrTagGo "a".data "data-markdef-key=\"".data cs.length cs 0
  let tagSegs := HTML_TO_MARK_MAP.flatMap
    (fun p => scanTagGo p.1.data p.2 cs.length cs 0)
  let customSegs := scanAttrTagGo "span".data "data-mark=\"".data cs.length cs 0
  sortSegments (linkSegs ++ tagSegs ++ customSegs)

/-- JS `Map<number, string[]>` get. -/
def mapGetPos (m : List (Nat × List String)) (k : Nat) : Option (List String) :=
  (m.find? (fun p => p.1 == k)).map (·.2)

/-- JS `Map` set: update in place, else append. -/
def mapSetPos (m : List (Nat × List String)) (k : Nat) (v : List String) :
    List (Nat × List String) :=
  if m.any (fun p => p.1 == k) then
    m.map (fun p => if p.1 == k then (k, v) else p)
  else m ++ [(k, v)]

/-- Marks applied to each position of a segment occurrence
(the inner `for` loop of `buildMarkMap`). -/
def applyMarksRange (m : List (Nat × List String)) (pos : Nat)
    (marks : List String) : Nat → List (Nat × List String)
  | 0 => m
  | count + 1 =>
    applyMarksRange (mapSetPos m pos ((mapGetPos m pos).getD [] ++ marks))
      (pos + 1) marks count

/-- Model of `buildMarkMap`: locate each segment's text in the plain text
from the current position onwards and mark the covered character positions;
a segment whose text is not found is skipped without advancing. -/
def buildMarkMapGo (plainText : List Char) :
    List TextSegment → List (Nat × List String) → Nat → List (Nat × List String)
  | [], m, _ => m
  | seg :: rest, m, cur =>
    match indexOfFrom plainText seg.text.data cur with
    | some pos =>
      buildMarkMapGo plainText rest
        (applyMarksRange m pos seg.marks seg.text.length) (pos + seg.text.length)
    | none => buildMarkMapGo plainText rest m cur

def buildMarkMap (segments : List TextSegment) (plainText : String) :
    List (Nat × List String) :=
  buildMarkMapGo plainText.data segments [] 0

/-- Span produced by the decoder. -/
structure SpanRec where
  key : String
  text : String
  marks : List String
  deriving Repr, DecidableEq

/-- Character runs of equal mark sets (the main loop of `parseHtmlToSpans`);
mark-set comparison via `JSON.stringify` equality is list equality. -/
def buildRunsGo (markMap : List (Nat × List String)) :
    List Char → Nat → String → List String → List (String × List String)
  | [], _, curT, curM => if curT ≠ "" then [(curT, curM)] else []
  | c :: rest, i, curT, curM =>
    let m := (mapGetPos markMap i).getD []
    if m ≠ curM then
      (if curT ≠ "" then [(curT, curM)] else []) ++
        buildRunsGo markMap rest (i + 1) (String.mk [c]) m
    else buildRunsGo markMap rest (i + 1) (curT.push c) curM

/-- Fresh span keys for the runs, in creation order. -/
def runsToSpans : List (String × List String) → Nat → List SpanRec × Nat
  | [], n => ([], n)
  | (t, m) :: rest, n =>
    let p := runsToSpans rest (n + 1)
    (⟨uuidKey n, t, m⟩ :: p.1, p.2)

/-- Merging of consecutive spans with identical mark lists (the `reduce` at
the end of `parseHtmlToSpans`); the earlier span keeps its key. -/
def mergeSpansAux (cur : SpanRec) : List SpanRec → List SpanRec
  | [] => [cur]
  | t :: rest =>
    if cur.marks = t.marks then mergeSpansAux { cur with text := cur.text ++ t.text } rest
    else cur :: mergeSpansAux t rest

def mergeSpans : List SpanRec → List SpanRec
  | [] => []
  | s :: rest => mergeSpansAux s rest

/-- Model of `parseHtmlToSpans`, threading the `uuid()` counter. -/
def parseHtmlToSpans (html : String) (counter : Nat) : List SpanRec × Nat :=
  let segments := extractSegmentsFromHtml html
  if segments.isEmpty then
    let plainText := stripTags html
    if jsTrim plainText ≠ "" then ([⟨uuidKey counter, plainText, []⟩], counter + 1)
    else ([], counter)
  else
    let plainText := stripTags html
    let markMap := buildMarkMap segments plainText
    let runs := buildRunsGo markMap plainText.data 0 "" []
    let p := runsToSpans runs counter
    (mergeSpans (p.1.filter (fun s => jsTrim s.text ≠ "")), p.2)

def spanToJValue (s : SpanRec) : JValue :=
  .obj [("_type", .str SPAN_TYPE), ("_key", .str s.key),
        ("text", .str s.text), ("marks", .arr (s.marks.map .str))]

/-- Model of `translatedHtml.replace(/^<p>|<\/p>$/g, '')`. -/
def stripPEdges (s : String) : String :=
  let d := s.data
  let d1 := if ['<', 'p', '>'].isPrefixOf d then d.drop 3 else d
  let d2 := if ['<', '/', 'p', '>'].isSuffixOf d1 then d1.take (d1.length - 4) else d1
  String.mk d2

/-- Object spread update `{...o, k: v}`: replace the binding in place when
the key exists, otherwise append it. -/
def setObjField (fs : List (String × JValue)) (k : String) (v : JValue) :
    List (String × JValue) :=
  if fs.any (fun p => p.1 == k) then
    fs.map (fun p => if p.1 == k then (k, v) else p)
  else fs ++ [(k, v)]

/-- Model of `parseHtmlToBlockStructure`.  A missing capture falls back to
the original block's value (spreading `undefined` over a block that also
lacks the property leaves it absent).  The outer `try/catch` fallback of the
source is unreachable in the model. -/
def parseHtmlToBlockStructure (translatedHtml : String) (originalBlock : JValue)
    (counter : Nat) : JValue × Nat :=
  let cleanHtml := stripPEdges translatedHtml
  let cd := cleanHtml.data
  let blockKey : Option JValue :=
    match firstAttrCapture "data-block-key=\"".data cd with
    | some k => some (.str k)
    | none => originalBlock.getField "_key"
  let blockStyle : Option JValue :=
    match firstAttrCapture "data-block-style=\"".data cd with
    | some s => some (.str s)
    | none => originalBlock.getField "style"
  let defaultDefs : JValue :=
    if jsFalsy (originalBlock.getField "markDefs") then .arr []
    else (originalBlock.getField "markDefs").getD (.arr [])
  let markDefs : JValue :=
    match firstAttrCapture "data-markdefs=\"".data cd with
    | some a =>
      if a = "" then defaultDefs
      else
        match decodeURIComponent a with
        | some dec =>
          match jparse dec with
          | some v => v
          | none => defaultDefs
        | none => defaultDefs
    | none => defaultDefs
  let p := parseHtmlToSpans cleanHtml counter
  let baseFields := match originalBlock with | .obj fs => fs | _ => []
  let fs1 := match blockKey with
    | some kv => setObjField baseFields "_key" kv
    | none => baseFields
  let fs2 := match blockStyle with
    | some sv => setObjField fs1 "style" sv
    | none => fs1
  let fs3 := setObjField fs2 "markDefs" markDefs
  let fs4 := setObjField fs3 "children" (.arr (p.1.map spanToJValue))
  (.obj fs4, p.2)

/-! ## blockContentProcessing.ts and the collector of TranslationService.ts

The collector threads an explicit state: the `fieldsToTranslate` and
`arrayFieldsToTranslate` accumulators (the source passes the former by
reference and concatenates the latter, producing the same final order), the
global `blockContentMap`, and the `uuid()` counter. -/

/-- Translatable field key: a bare name or a `{type, key}` pair. -/
inductive FieldKeyDef where
  | plain (key : String)
  | typed (type : List String) (key : String)
  deriving Repr, DecidableEq

def FieldKeyDef.name : FieldKeyDef → String
  | .plain k => k
  | .typed _ k => k

/-- First matching field definition
(`translatableFieldKeys.find(f => typeof f === 'object' ? f.key === key : f === key)`). -/
def findFieldDef (fk : List FieldKeyDef) (key : String) : Option FieldKeyDef :=
  fk.find? (fun f => f.name == key)

structure CollectState where
  fields : List FieldToTranslate
  arrayFields : List (String × JValue)
  blockMap : List (String × BlockContentMapItem)
  counter : Nat
  deriving Repr

/-- State at the start of a translation run (`clearBlockContentMap()` plus
fresh accumulators). -/
def emptyCollectState : CollectState := ⟨[], [], [], 0⟩

def pushField (st : CollectState) (f : FieldToTranslate) : CollectState :=
  { st with fields := st.fields ++ [f] }

def pushArrayField (st : CollectState) (k : String) (v : JValue) : CollectState :=
  { st with arrayFields := st.arrayFields ++ [(k, v)] }

def pushBlockItem (st : CollectState) (key : String) (item : BlockContentMapItem) :
    CollectState :=
  { st with blockMap := st.blockMap ++ [(key, item)] }

/-- Header test of the first pass: `HEADER_STYLES.includes(block.style || '')`;
`''` and non-strings are never header styles. -/
def isHeaderStyleOf (block : JValue) : Bool :=
  match block.getStr "style" with
  | some s => HEADER_STYLES.contains s
  | none => false

/-- Normal test of the first pass: `block.style === 'normal' || !block.style`. -/
def isNormalStyleOf (block : JValue) : Bool :=
  block.getStr "style" == some "normal" || jsFalsy (block.getField "style")

/-- Joined text of a block's valid spans. -/
def blockJoinedText (block : JValue) : String :=
  match block.getField "children" with
  | some (.arr children) =>
    String.join ((children.filter isValidSpan).map (fun c => (c.getStr "text").getD ""))
  | _ => ""

/-- Lookup of a string property directly on an object's field list
(used inside the mutual group where the object is already matched). -/
def fieldsGetStr (fs : List (String × JValue)) (k : String) : Option String :=
  match (fs.find? (fun p => p.1 == k)).map (·.2) with
  | some (JValue.str s) => some s
  | _ => none

/-- First pass of `processBlockContent`: the `blockContextMap` over the
`block`-typed members (a `null` member makes the source throw; modelled as a
skip, see the module comment). -/
def buildBlockContextMap : List JValue → Nat → List (Nat × BlockInfo)
  | [], _ => []
  | block :: rest, i =>
    if block.getStr "_type" == some BLOCK_CONTENT_TYPE then
      (i, ⟨blockJoinedText block, isNormalStyleOf block, isHeaderStyleOf block⟩) ::
        buildBlockContextMap rest (i + 1)
    else buildBlockContextMap rest (i + 1)

/-- Simple (non-HTML) path of the second pass: every valid span's text is
pushed with a fresh key and recorded in `blockContentMap`; note there is no
emptiness check on the text here. -/
def simpleSpansGo (nestedKey nestedArrayPath : String) (blockIndex : Nat)
    (context : Option String) (isHeader : Bool) :
    List JValue → CollectState → CollectState
  | [], st => st
  | child :: rest, st =>
    let st' :=
      if isValidSpan child then
        let key := uuidKey st.counter
        let st1 := { st with counter := st.counter + 1 }
        let st2 := pushField st1 ⟨key, (child.getStr "text").getD "", context, false⟩
        pushBlockItem st2 key ⟨nestedKey, blockIndex, context, isHeader, nestedArrayPath, false⟩
      else st
    simpleSpansGo nestedKey nestedArrayPath blockIndex context isHeader rest st'

/-- Inner span loop of the nested block-content handling inside
`processCustomBlockType` (this one does check `text.trim() !== ''`). -/
def customNestedSpanChildren (fieldKey customBlockArrayPath : String)
    (contentBlockIndex : Nat) : List JValue → CollectState → CollectState
  | [], st => st
  | child :: rest, st =>
    let st' :=
      if (child.getStr "_type" == some SPAN_TYPE) &&
         (match child.getStr "text" with
          | some t => jsTrim t != ""
          | none => false) then
        let key := uuidKey st.counter
        let st1 := { st with counter := st.counter + 1 }
        let st2 := pushField st1 ⟨key, (child.getStr "text").getD "", none, false⟩
        pushBlockItem st2 key
          ⟨fieldKey, contentBlockIndex, none, false, customBlockArrayPath, false⟩
      else st
    customNestedSpanChildren fieldKey customBlockArrayPath contentBlockIndex rest st'

/-- Block loop of the nested block-content handling inside
`processCustomBlockType`. -/
def customNestedContentBlocks (fieldKey customBlockArrayPath : String) :
    List JValue → Nat → CollectState → CollectState
  | [], _, st => st
  | contentBlock :: rest, i, st =>
    let st' :=
      if contentBlock.getStr "_type" == some BLOCK_CONTENT_TYPE then
        match contentBlock.getField "children" with
        | some (.arr children) =>
          customNestedSpanChildren fieldKey customBlockArrayPath i children st
        | _ => st
      else st
    customNestedContentBlocks fieldKey customBlockArrayPath rest (i + 1) st'

mutual

/-- Model of `mapFieldsToTranslate`; a non-object (or `null`) root yields
the state unchanged (the source returns two fresh empty lists). -/
def mapFieldsToTranslate (data : JValue) (parentType path : String)
    (fk : List FieldKeyDef) (afk : List String) (st : CollectState) : CollectState :=
  match data with
  | .obj fs => mfFieldsGo fs parentType path fk afk st
  | .arr xs => mfArrGo xs 0 parentType path fk afk st
  | _ => st
termination_by structural data

/-- Entry loop of `mapFieldsToTranslate` over `Object.entries` of an object. -/
def mfFieldsGo (fs : List (String × JValue)) (parentType path : String)
    (fk : List FieldKeyDef) (afk : List String) (st : CollectState) : CollectState :=
  match fs with
  | [] => st
  | (key, value) :: rest =>
    let st' :=
      if key == "_translations" then st
      else
        match value with
        | .arr xs =>
          if isBlockContent value then
            processBlocksGo xs.length (buildBlockContextMap xs 0) key
              (joinPath path key) (some fk) xs 0 st
          else if afk.contains key then pushArrayField st key value
          else
            let st1 := processNestedBlockContent value key path (some fk) st
            mapFieldsToTranslate value ((value.getStr "_type").getD parentType)
              (joinPath path key) fk afk st1
        | .obj _ =>
          let st1 := processNestedBlockContent value key path (some fk) st
          mapFieldsToTranslate value ((value.getStr "_type").getD parentType)
            (joinPath path key) fk afk st1
        | .null => st
        | .str s =>
          match findFieldDef fk key with
          | some fd =>
            let isTranslatable := match fd with
              | .plain _ => parentType != ""
              | .typed tys _ => tys.contains parentType
            if isTranslatable && jsTrim s != "" then
              pushField st ⟨joinPath path key, s, none, false⟩
            else st
          | none => st
        | _ => st
    mfFieldsGo rest parentType path fk afk st'
termination_by structural fs

/-- Entry loop of `mapFieldsToTranslate` over `Object.entries` of an array
(index keys). -/
def mfArrGo (xs : List JValue) (i : Nat) (parentType path : String)
    (fk : List FieldKeyDef) (afk : List String) (st : CollectState) : CollectState :=
  match xs with
  | [] => st
  | value :: rest =>
    let key := toString i
    let st' :=
      match value with
      | .arr ys =>
        if isBlockContent value then
          processBlocksGo ys.length (buildBlockContextMap ys 0) key
            (joinPath path key) (some fk) ys 0 st
        else if afk.contains key then pushArrayField st key value
        else
          let st1 := processNestedBlockContent value key path (some fk) st
          mapFieldsToTranslate value ((value.getStr "_type").getD parentType)
            (joinPath path key) fk afk st1
      | .obj _ =>
        let st1 := processNestedBlockContent value key path (some fk) st
        mapFieldsToTranslate value ((value.getStr "_type").getD parentType)
          (joinPath path key) fk afk st1
      | .null => st
      | .str s =>
        match findFieldDef fk key with
        | some fd =>
          let isTranslatable := match fd with
            | .plain _ => parentType != ""
            | .typed tys _ => tys.contains parentType
          if isTranslatable && jsTrim s != "" then
            pushField st ⟨joinPath path key, s, none, false⟩
          else st
        | none => st
      | _ => st
    mfArrGo rest (i + 1) parentType path fk afk st'
termination_by structural xs

/-- Model of `processNestedBlockContent({object, key, path, ...})`: the source
reads `object[key]` and dispatches on it.  A `null` object makes the source
throw (modelled as a no-op); a missing or `null` member returns. -/
def processNestedBlockContent (object : JValue) (key path : String)
    (tfk : Option (List FieldKeyDef)) (st : CollectState) : CollectState :=
  match object with
  | .obj fs => pnbcLookupGo fs key path tfk st
  | .arr xs =>
    match decimalNat? key with
    | some n => pnbcNthGo xs n key path tfk st
    | none => st
  | _ => st

/-- Lookup of `object[key]` on an object (JS object keys are unique, so the
first binding is the binding). -/
def pnbcLookupGo (fs : List (String × JValue)) (key path : String)
    (tfk : Option (List FieldKeyDef)) (st : CollectState) : CollectState :=
  match fs with
  | [] => st
  | (k, v) :: rest =>
    if k == key then
      match v with
      | .null => st
      | _ => pnbcValueGo v key (joinPath path key) tfk st
    else pnbcLookupGo rest key path tfk st
termination_by structural fs

/-- Lookup of `object[key]` on an array with a numeric key. -/
def pnbcNthGo (xs : List JValue) (n : Nat) (key path : String)
    (tfk : Option (List FieldKeyDef)) (st : CollectState) : CollectState :=
  match xs, n with
  | [], _ => st
  | v :: _, 0 =>
    (match v with
     | .null => st
     | _ => pnbcValueGo v key (joinPath path key) tfk st)
  | _ :: rest, m + 1 => pnbcNthGo rest m key path tfk st
termination_by structural xs

/-- Dispatch of `processNestedBlockContent` on the looked-up value: a
block-content array is processed; any other object or array is scanned
recursively over all of its keys — note there is no `_translations` check
in this function. -/
def pnbcValueGo (value : JValue) (key currentPath : String)
    (tfk : Option (List FieldKeyDef)) (st : CollectState) : CollectState :=
  match value with
  | .arr xs =>
    if isBlockContent value then
      processBlocksGo xs.length (buildBlockContextMap xs 0) key currentPath tfk xs 0 st
    else pnbcArrChildrenGo xs 0 currentPath tfk st
  | .obj fs => pnbcObjChildrenGo fs currentPath tfk st
  | _ => st
termination_by structural value

/-- Recursion of `processNestedBlockContent` over the keys of a nested
object; each recursive call re-reads `value[nestedKey]`, which is the
iterated binding since JS object keys are unique. -/
def pnbcObjChildrenGo (fs : List (String × JValue)) (currentPath : String)
    (tfk : Option (List FieldKeyDef)) (st : CollectState) : CollectState :=
  match fs with
  | [] => st
  | (nestedKey, w) :: rest =>
    let st' :=
      match w with
      | .null => st
      | _ => pnbcValueGo w nestedKey (joinPath currentPath nestedKey) tfk st
    pnbcObjChildrenGo rest currentPath tfk st'
termination_by structural fs

/-- Recursion of `processNestedBlockContent` over the index keys of a nested
non-block-content array. -/
def pnbcArrChildrenGo (xs : List JValue) (i : Nat) (currentPath : String)
    (tfk : Option (List FieldKeyDef)) (st : CollectState) : CollectState :=
  match xs with
  | [] => st
  | w :: rest =>
    let st' :=
      match w with
      | .null => st
      | _ => pnbcValueGo w (toString i) (joinPath currentPath (toString i)) tfk st
    pnbcArrChildrenGo rest (i + 1) currentPath tfk st'
termination_by structural xs

/-- Second pass of `processBlockContent`: header context lookup, HTML
encoding of complex blocks, the unchecked simple-span path, and custom block
types (`block._type && translatableFieldKeys`). -/
def processBlocksGo (len : Nat) (ctxMap : List (Nat × BlockInfo))
    (nestedKey nestedArrayPath : String) (tfk : Option (List FieldKeyDef))
    (blocks : List JValue) (blockIndex : Nat) (st : CollectState) : CollectState :=
  match blocks with
  | [] => st
  | block :: rest =>
    let st' :=
      if block.getStr "_type" == some BLOCK_CONTENT_TYPE then
        match blockInfoGet ctxMap blockIndex with
        | none => st
        | some info =>
          let isHeader := info.isHeader
          let context :=
            if isHeader then findContextForHeaderBlock len ctxMap blockIndex else none
          if shouldUseHtmlForBlock block then
            let html := convertBlockToHtml block
            let key := uuidKey st.counter
            let st1 := { st with counter := st.counter + 1 }
            let st2 := pushField st1 ⟨key, html, context, true⟩
            pushBlockItem st2 key ⟨nestedKey, blockIndex, context, isHeader, nestedArrayPath, true⟩
          else
            match block.getField "children" with
            | some (.arr children) =>
              simpleSpansGo nestedKey nestedArrayPath blockIndex context isHeader children st
            | _ => st
      else if (!jsFalsy (block.getField "_type")) && tfk.isSome then
        processCustomBlockType block blockIndex nestedArrayPath (tfk.getD []) st
      else st
    processBlocksGo len ctxMap nestedKey nestedArrayPath tfk rest (blockIndex + 1) st'
termination_by structural blocks

/-- Model of `processCustomBlockType`. -/
def processCustomBlockType (block : JValue) (blockIndex : Nat)
    (nestedArrayPath : String) (fk : List FieldKeyDef) (st : CollectState) : CollectState :=
  match block with
  | .obj fs => pcbtFieldsGo ((fieldsGetStr fs "_type").getD "") blockIndex nestedArrayPath fk fs st
  | _ => st
termination_by structural block

/-- Field loop of `processCustomBlockType`: system fields are skipped; then,
in order, the translatable-string branch, the nested block-content branch and
the nested object branch (all guarded `if`s in the source, applied
sequentially). -/
def pcbtFieldsGo (blockType : String) (blockIndex : Nat) (nestedArrayPath : String)
    (fk : List FieldKeyDef) (fs : List (String × JValue)) (st : CollectState) : CollectState :=
  match fs with
  | [] => st
  | (fieldKey, fieldValue) :: rest =>
    if jsStartsWith fieldKey "_" then
      pcbtFieldsGo blockType blockIndex nestedArrayPath fk rest st
    else
      let childPath := nestedArrayPath ++ "." ++ toString blockIndex ++ "." ++ fieldKey
      let st1 :=
        match findFieldDef fk fieldKey with
        | some fd =>
          let isTranslatable := match fd with
            | .plain _ => true
            | .typed tys _ => tys.contains blockType
          match fieldValue with
          | .str s =>
            if isTranslatable && jsTrim s != "" then
              pushField st ⟨childPath, s, none, false⟩
            else st
          | _ => st
        | none => st
      let st2 :=
        match fieldValue with
        | .arr xs =>
          if isBlockContent fieldValue then
            customNestedContentBlocks fieldKey childPath xs 0 st1
          else st1
        | _ => st1
      let st3 :=
        match fieldValue with
        | .obj gs => pnofFieldsGo ((fieldsGetStr gs "_type").getD "") childPath fk gs st2
        | _ => st2
      pcbtFieldsGo blockType blockIndex nestedArrayPath fk rest st3
termination_by structural fs

/-- Field loop of `processNestedObjectFields`: skip `_`-prefixed keys; a
non-blank string matching a field key (bare, or typed with the object's
`_type`) is pushed; nested objects recurse; nested block-content arrays go to
`processBlockContent`. -/
def pnofFieldsGo (objType basePath : String) (fk : List FieldKeyDef)
    (fs : List (String × JValue)) (st : CollectState) : CollectState :=
  match fs with
  | [] => st
  | (key, value) :: rest =>
    if jsStartsWith key "_" then pnofFieldsGo objType basePath fk rest st
    else
      let st' :=
        match value with
        | .str s =>
          if jsTrim s != "" then
            match findFieldDef fk key with
            | some fd =>
              if (match fd with
                  | .plain _ => true
                  | .typed tys _ => tys.contains objType) then
                pushField st ⟨basePath ++ "." ++ key, s, none, false⟩
              else st
            | none => st
          else st
        | .obj gs =>
          pnofFieldsGo ((fieldsGetStr gs "_type").getD "") (basePath ++ "." ++ key) fk gs st
        | .arr xs =>
          if isBlockContent value then
            processBlocksGo xs.length (buildBlockContextMap xs 0) key
              (basePath ++ "." ++ key) (some fk) xs 0 st
          else st
        | _ => st
      pnofFieldsGo objType basePath fk rest st'
termination_by structural fs

end

/-- Model of `processNestedObjectFields` (guard: only plain objects).
Inside the mutual group above, its calls are written through its unfolding
`pnofFieldsGo` for structural recursion. -/
def processNestedObjectFields (obj : JValue) (basePath : String)
    (fk : List FieldKeyDef) (st : CollectState) : CollectState :=
  match obj with
  | .obj fs => pnofFieldsGo ((fieldsGetStr fs "_type").getD "") basePath fk fs st
  | _ => st

/-- Model of `processBlockContent`: build the first-pass context map, then
process every block.  Inside the mutual group above, calls of
`processBlockContent` are written through its unfolding `processBlocksGo`
(so that the recursion is structural); this wrapper is definitionally equal
to those call sites. -/
def processBlockContent (nestedArray : List JValue) (nestedKey nestedArrayPath : String)
    (tfk : Option (List FieldKeyDef)) (st : CollectState) : CollectState :=
  processBlocksGo nestedArray.length (buildBlockContextMap nestedArray 0)
    nestedKey nestedArrayPath tfk nestedArray 0 st

/-! ## Tree rewriter: applyBlockContentTranslations and replaceTranslations -/

/-- JS `Map<string, string>` lookup. -/
def mapGetStr (m : List (String × String)) (k : String) : Option String :=
  (m.find? (fun p => p.1 == k)).map (·.2)

def mapHasStr (m : List (String × String)) (k : String) : Bool :=
  m.any (fun p => p.1 == k)

/-- JS `Map<number, string>` set (update in place, else append). -/
def htmlMapSet (m : List (Nat × String)) (k : Nat) (v : String) : List (Nat × String) :=
  if m.any (fun p => p.1 == k) then
    m.map (fun p => if p.1 == k then (k, v) else p)
  else m ++ [(k, v)]

def htmlMapGet (m : List (Nat × String)) (k : Nat) : Option String :=
  (m.find? (fun p => p.1 == k)).map (·.2)

/-- Grouping loop of `applyBlockContentTranslations`: walk the relevant
`blockContentMap` keys in insertion order and split the found translations
into per-block-index HTML and span-translation maps. -/
def groupTranslationsGo (tm : List (String × String)) :
    List (String × BlockContentMapItem) →
    List (Nat × List String) → List (Nat × String) →
    List (Nat × List String) × List (Nat × String)
  | [], bt, bh => (bt, bh)
  | (mapKey, item) :: rest, bt, bh =>
    match mapGetStr tm mapKey with
    | some t =>
      if item.isHtml then groupTranslationsGo tm rest bt (htmlMapSet bh item.blockIndex t)
      else
        groupTranslationsGo tm rest
          (mapSetPos bt item.blockIndex ((mapGetPos bt item.blockIndex).getD [] ++ [t])) bh
    | none => groupTranslationsGo tm rest bt bh

/-- Replacement of a valid span's text (`block.children[childIndex].text = ...`). -/
def setSpanText (child : JValue) (t : String) : JValue :=
  match child with
  | .obj fs => .obj (setObjField fs "text" (.str t))
  | v => v

/-- Span loop of the non-HTML application: each valid span consumes the next
translation while any remain; marks are untouched and further spans are left
unchanged. -/
def applySpanTranslationsGo (translations : List String) :
    List JValue → Nat → List JValue
  | [], _ => []
  | child :: rest, tIdx =>
    if isValidSpan child && tIdx < translations.length then
      setSpanText child (translations.getD tIdx "") ::
        applySpanTranslationsGo translations rest (tIdx + 1)
    else child :: applySpanTranslationsGo translations rest tIdx

/-- Per-block application loop of `applyBlockContentTranslations`: `null` and
non-`block` members are skipped; an HTML translation (when non-empty —
`if (translation)`) replaces the whole block via `parseHtmlToBlockStructure`;
otherwise grouped span translations are applied in order. -/
def applyBlocksGo (bh : List (Nat × String)) (bt : List (Nat × List String)) :
    List JValue → Nat → Nat → List JValue × Nat
  | [], _, counter => ([], counter)
  | block :: rest, blockIndex, counter =>
    let stepped : JValue × Nat :=
      match block with
      | .obj fs =>
        if fieldsGetStr fs "_type" == some BLOCK_CONTENT_TYPE then
          match htmlMapGet bh blockIndex with
          | some t =>
            if t ≠ "" then parseHtmlToBlockStructure t block counter
            else (block, counter)
          | none =>
            match mapGetPos bt blockIndex with
            | some ts =>
              match (fs.find? (fun p => p.1 == "children")).map (·.2) with
              | some (JValue.arr children) =>
                (.obj (setObjField fs "children"
                  (.arr (applySpanTranslationsGo ts children 0))), counter)
              | _ => (block, counter)
            | none => (block, counter)
        else (block, counter)
      | _ => (block, counter)
    let restP := applyBlocksGo bh bt rest (blockIndex + 1) stepped.2
    (stepped.1 :: restP.1, restP.2)

/-- Model of `applyBlockContentTranslations` (the unused `fieldsToTranslate`
and `batchedTranslations` parameters of the source are omitted); the
`uuid()` counter is threaded for the spans created by HTML decoding. -/
def applyBlockContentTranslations (value : List JValue) (key currentArrayPath : String)
    (blockMap : List (String × BlockContentMapItem)) (translationMap : List (String × String))
    (counter : Nat) : List JValue × Nat :=
  let relevant := blockMap.filter (fun p =>
    p.2.arrayPath == currentArrayPath && p.2.fieldName == key)
  let grouped := groupTranslationsGo translationMap relevant [] []
  applyBlocksGo grouped.2 grouped.1 value 0 counter

/-- Index-based fallback of the string branch of `replaceTranslations` when
the key is absent from the translation map: look the field up by position in
`fieldsToTranslate` and read the same position of `batchedTranslations`.
When that position is out of range the source assigns JS `undefined` to the
field, modelled as `null` (no theorem relies on this arm: the pipeline always
derives `batchedTranslations` with one entry per field). -/
def indexFallback (fieldsToTranslate : List FieldToTranslate)
    (batchedTranslations : List String) (field : FieldToTranslate)
    (origValue : String) : JValue :=
  match fieldsToTranslate.findIdx? (fun f => f.key == field.key && f.value == field.value) with
  | some idx =>
    match batchedTranslations.get? idx with
    | some t => .str t
    | none => .null
  | none => .str origValue

/-- Lookup of the string branch: a field entry matches when its key is the
bare key or ends in `.key`, and its recorded value equals the current one. -/
def findMatchingField (fieldsToTranslate : List FieldToTranslate)
    (key value : String) : Option FieldToTranslate :=
  fieldsToTranslate.find? (fun f =>
    (f.key == key || jsEndsWith f.key ("." ++ key)) && f.value == value)

/-- New value of a matched string field: the translation map wins when it has
the key; otherwise the index fallback applies. -/
def translatedStringValue (tm : Option (List (String × String)))
    (fieldsToTranslate : List FieldToTranslate) (batchedTranslations : List String)
    (field : FieldToTranslate) (origValue : String) : JValue :=
  match tm with
  | some m =>
    if mapHasStr m field.key then .str ((mapGetStr m field.key).getD "")
    else indexFallback fieldsToTranslate batchedTranslations field origValue
  | none => indexFallback fieldsToTranslate batchedTranslations field origValue

mutual

/-- Model of `replaceTranslations`.  The source recursion terminates because
JS values are finite; the model indexes it by an explicit recursion bound
(`fuel`), consumed one unit per visited node or entry, and exhaustion leaves
the remaining subtree unchanged.  Every theorem below either holds for every
bound or instantiates a concrete sufficient one. -/
def replaceValueGo (fuel : Nat) (obj : JValue)
    (batchedArr : List (String × JValue)) (batchedTranslations : List String)
    (fieldsToTranslate : List FieldToTranslate) (tm : Option (List (String × String)))
    (path : String) (afk : List String)
    (blockMap : List (String × BlockContentMapItem)) (counter : Nat) : JValue × Nat :=
  match fuel, obj with
  | 0, v => (v, counter)
  | fuel + 1, .obj fs =>
    let p := replaceFieldsGo fuel fs batchedArr batchedTranslations fieldsToTranslate
      tm path afk blockMap counter
    (.obj p.1, p.2)
  | fuel + 1, .arr xs =>
    let p := replaceArrGo fuel xs 0 batchedArr batchedTranslations fieldsToTranslate
      tm path afk blockMap counter
    (.arr p.1, p.2)
  | _ + 1, v => (v, counter)
termination_by structural fuel

/-- Entry loop of `replaceTranslations` over an object's entries: skip
`_translations`; apply block-content translations to every array when a
translation map is present (no early return); replace translatable array
fields; recurse into objects and arrays; rewrite matched non-blank strings. -/
def replaceFieldsGo (fuel : Nat) (fs : List (String × JValue))
    (batchedArr : List (String × JValue)) (batchedTranslations : List String)
    (fieldsToTranslate : List FieldToTranslate) (tm : Option (List (String × String)))
    (path : String) (afk : List String)
    (blockMap : List (String × BlockContentMapItem)) (counter : Nat) :
    List (String × JValue) × Nat :=
  match fuel, fs with
  | 0, l => (l, counter)
  | _ + 1, [] => ([], counter)
  | fuel + 1, (key, value) :: rest =>
    let pc : JValue × Nat :=
      if key == "_translations" then (value, counter)
      else
        let applied : JValue × Nat :=
          match value, tm with
          | .arr xs, some m =>
            let p := applyBlockContentTranslations xs key (joinPath path key) blockMap m counter
            (.arr p.1, p.2)
          | _, _ => (value, counter)
        let value' := applied.1
        let c1 := applied.2
        if (match value' with | .arr _ => true | _ => false) && afk.contains key then
          match batchedArr.find? (fun p => p.1 == key) with
          | some pv => if jsFalsy (some pv.2) then (value', c1) else (pv.2, c1)
          | none => (value', c1)
        else
          match value' with
          | .obj _ =>
            replaceValueGo fuel value' batchedArr batchedTranslations fieldsToTranslate
              tm (joinPath path key) afk blockMap c1
          | .arr _ =>
            replaceValueGo fuel value' batchedArr batchedTranslations fieldsToTranslate
              tm (joinPath path key) afk blockMap c1
          | .str s =>
            if jsTrim s != "" then
              match findMatchingField fieldsToTranslate key s with
              | some field =>
                (translatedStringValue tm fieldsToTranslate batchedTranslations field s, c1)
              | none => (value', c1)
            else (value', c1)
          | _ => (value', c1)
    let restP := replaceFieldsGo fuel rest batchedArr batchedTranslations fieldsToTranslate
      tm path afk blockMap pc.2
    ((key, pc.1) :: restP.1, restP.2)
termination_by structural fuel

/-- Entry loop of `replaceTranslations` over an array's index keys
(`Object.entries` of an array). -/
def replaceArrGo (fuel : Nat) (xs : List JValue) (i : Nat)
    (batchedArr : List (String × JValue)) (batchedTranslations : List String)
    (fieldsToTranslate : List FieldToTranslate) (tm : Option (List (String × String)))
    (path : String) (afk : List String)
    (blockMap : List (String × BlockContentMapItem)) (counter : Nat) :
    List JValue × Nat :=
  match fuel, xs with
  | 0, l => (l, counter)
  | _ + 1, [] => ([], counter)
  | fuel + 1, value :: rest =>
    let key := toString i
    let pc : JValue × Nat :=
      if key == "_translations" then (value, counter)
      else
        let applied : JValue × Nat :=
          match value, tm with
          | .arr xs, some m =>
            let p := applyBlockContentTranslations xs key (joinPath path key) blockMap m counter
            (.arr p.1, p.2)
          | _, _ => (value, counter)
        let value' := applied.1
        let c1 := applied.2
        if (match value' with | .arr _ => true | _ => false) && afk.contains key then
          match batchedArr.find? (fun p => p.1 == key) with
          | some pv => if jsFalsy (some pv.2) then (value', c1) else (pv.2, c1)
          | none => (value', c1)
        else
          match value' with
          | .obj _ =>
            replaceValueGo fuel value' batchedArr batchedTranslations fieldsToTranslate
              tm (joinPath path key) afk blockMap c1
          | .arr _ =>
            replaceValueGo fuel value' batchedArr batchedTranslations fieldsToTranslate
              tm (joinPath path key) afk blockMap c1
          | .str s =>
            if jsTrim s != "" then
              match findMatchingField fieldsToTranslate key s with
              | some field =>
                (translatedStringValue tm fieldsToTranslate batchedTranslations field s, c1)
              | none => (value', c1)
            else (value', c1)
          | _ => (value', c1)
    let restP := replaceArrGo fuel rest (i + 1) batchedArr batchedTranslations fieldsToTranslate
      tm path afk blockMap pc.2
    ((key, pc.1).2 :: restP.1, restP.2)
termination_by structural fuel

end

/-- Entry point of the rewriter (`replaceTranslations({obj, ...})` with the
default empty path); non-objects are returned unchanged. -/
def replaceTranslations (fuel : Nat) (obj : JValue)
    (batchedArr : List (String × JValue)) (batchedTranslations : List String)
    (fieldsToTranslate : List FieldToTranslate) (tm : Option (List (String × String)))
    (path : String) (afk : List String)
    (blockMap : List (String × BlockContentMapItem)) (counter : Nat) : JValue × Nat :=
  replaceValueGo fuel obj batchedArr batchedTranslations fieldsToTranslate
    tm path afk blockMap counter

/-! ## promiseUtils.ts -/

/-- Outcome of `Promise.allSettled` for one promise. -/
inductive SettledResult (α : Type) where
  | fulfilled (value : α)
  | rejected (reason : String)
  deriving Repr, DecidableEq

/-- Chunking loop `for (i = 0; i < array.length; i += size)`, with the array
length as structural fuel.  Each step consumes `size ≥ 1` elements, so fuel
equal to the length is enough; with `size = 0` the source loops forever while
the model stops after `length` empty chunks (no theorem uses `size = 0`). -/
def chunkArrayGo (size : Nat) {α : Type} : Nat → List α → List (List α)
  | _, [] => []
  | 0, _ => []
  | fuel + 1, l => l.take size :: chunkArrayGo size fuel (l.drop size)

/-- Model of the local `chunkArray` helper of `processPromisesInChunks`;
also used for the 50-sized batch loops of the translation service. -/
def chunkArray {α : Type} (array : List α) (size : Nat) : List (List α) :=
  chunkArrayGo size array.length array

/-- Model of `processPromisesInChunks`: a promise is modelled by its eventual
settlement, and `Promise.allSettled` of a chunk settles every member in
order; the function awaits each chunk in order and concatenates the results. -/
def processPromisesInChunks {α : Type} (promises : List (SettledResult α))
    (chunkSize : Nat) : List (SettledResult α) :=
  ((chunkArray promises chunkSize).map (fun chunk => chunk.map id)).flatten

/-! ## Batch translator adapter (TranslationService.ts) -/

/-- One call to `translator.translateText(texts, null, language, opts)`:
the texts, the optional `context` and whether `tagHandling: 'html'` was set.
The target language does not affect the modelled control flow. -/
structure TranslateRequest where
  texts : List String
  context : Option String := none
  tagHandlingHtml : Bool := false
  deriving Repr, DecidableEq

/-- The DeepL capability: an order-preserving list of translations, or a
thrown error.  The model returns the request log alongside the translation
map so that what was sent to the provider is observable. -/
def Translator : Type := TranslateRequest → Except String (List String)

/-- JS `Map<string, string>` set (update in place, else append). -/
def mapSetStr (m : List (String × String)) (k v : String) : List (String × String) :=
  if m.any (fun p => p.1 == k) then
    m.map (fun p => if p.1 == k then (k, v) else p)
  else m ++ [(k, v)]

/-- Leading whitespace run (`original.match(/^\s*/)[0]`). -/
def leadingWsRun (s : String) : String :=
  String.mk (s.data.takeWhile isJsWs)

/-- Trailing whitespace run (`original.match(/\s*$/)[0]`). -/
def trailingWsRun (s : String) : String :=
  String.mk ((s.data.reverse.takeWhile isJsWs).reverse)

/-- Model of `processItemsWithContext`: each item is translated individually.
HTML items are sent as-is in HTML mode.  Plain items are sent as-is
(`[textToTranslate.original]`); the result is lower-cased when the source was
entirely lower-case, and the source's leading/trailing whitespace is
re-attached around the trimmed result.  A provider reply shorter than the
request would make the source throw on `translations[0].text`; the model
returns an error in that case (the provider contract is same-length). -/
def processItemsWithContext (items : List FieldToTranslate) (translator : Translator)
    (tm : List (String × String)) (log : List TranslateRequest) :
    Except String (List (String × String) × List TranslateRequest) :=
  match items with
  | [] => .ok (tm, log)
  | field :: rest =>
    if jsTrim field.value == "" then processItemsWithContext rest translator tm log
    else if field.isHtml then
      let req : TranslateRequest := ⟨[field.value], field.context, true⟩
      match translator req with
      | .error e => .error e
      | .ok ts =>
        match ts.head? with
        | some t =>
          processItemsWithContext rest translator (mapSetStr tm field.key t) (log ++ [req])
        | none => .error "missing translation"
    else
      let req : TranslateRequest := ⟨[field.value], field.context, false⟩
      match translator req with
      | .error e => .error e
      | .ok ts =>
        match ts.head? with
        | some t =>
          let t1 := if jsToLower field.value == field.value then jsToLower t else t
          let t2 := leadingWsRun field.value ++ jsTrim t1 ++ trailingWsRun field.value
          processItemsWithContext rest translator (mapSetStr tm field.key t2) (log ++ [req])
        | none => .error "missing translation"

/-- HTML batch loop of `processItemsWithoutContext` (chunks of 50): blank
values are filtered out, an entirely blank batch is skipped, and each
translation is stored under its field key.  A reply of a different length
than the request is truncated by the zip (a longer reply would make the
source throw; the provider contract is same-length). -/
def piwcHtmlBatches (translator : Translator) :
    List (List FieldToTranslate) → List (String × String) → List TranslateRequest →
    Except String (List (String × String) × List TranslateRequest)
  | [], tm, log => .ok (tm, log)
  | batch :: restBatches, tm, log =>
    let htmlToTranslate := (batch.map (fun f => (f.value, f.key))).filter
      (fun p => jsTrim p.1 != "")
    if htmlToTranslate.isEmpty then piwcHtmlBatches translator restBatches tm log
    else
      let req : TranslateRequest := ⟨htmlToTranslate.map (·.1), none, true⟩
      match translator req with
      | .error e => .error e
      | .ok ts =>
        let tm' := (ts.zip htmlToTranslate).foldl
          (fun m p => mapSetStr m p.2.2 p.1) tm
        piwcHtmlBatches translator restBatches tm' (log ++ [req])

/-- Regular batch loop of `processItemsWithoutContext` (chunks of 50): an
entirely upper-case source is sent lower-cased; on the way back a single
leading/trailing space of the source is re-attached and, for an entirely
upper-case source, the whole result is upper-cased. -/
def piwcRegularBatches (translator : Translator) :
    List (List FieldToTranslate) → List (String × String) → List TranslateRequest →
    Except String (List (String × String) × List TranslateRequest)
  | [], tm, log => .ok (tm, log)
  | batch :: restBatches, tm, log =>
    let textToTranslate := (batch.map (fun f => (f.value, jsToLower f.value, f.key))).filter
      (fun p => jsTrim p.2.1 != "")
    if textToTranslate.isEmpty then piwcRegularBatches translator restBatches tm log
    else
      let req : TranslateRequest :=
        ⟨textToTranslate.map (fun p => if p.1 == jsToUpper p.1 then p.2.1 else p.1), none, false⟩
      match translator req with
      | .error e => .error e
      | .ok ts =>
        let tm' := (ts.zip textToTranslate).foldl
          (fun m p =>
            let orig := p.2.1
            let lead := if jsStartsWith orig " " then " " else ""
            let trail := if jsEndsWith orig " " then " " else ""
            let adjusted := lead ++ p.1 ++ trail
            let formatted := if orig == jsToUpper orig then jsToUpper adjusted else adjusted
            mapSetStr m p.2.2.2 formatted) tm
        piwcRegularBatches translator restBatches tm' (log ++ [req])

/-- Model of `processItemsWithoutContext`: HTML items first, then regular
items, both in batches of 50. -/
def processItemsWithoutContext (items : List FieldToTranslate) (translator : Translator)
    (tm : List (String × String)) (log : List TranslateRequest) :
    Except String (List (String × String) × List TranslateRequest) :=
  let htmlItems := items.filter (fun f => f.isHtml)
  let regularItems := items.filter (fun f => !f.isHtml)
  match piwcHtmlBatches translator (chunkArray htmlItems 50) tm log with
  | .error e => .error e
  | .ok (tm1, log1) => piwcRegularBatches translator (chunkArray regularItems 50) tm1 log1

/-- One-level array flattening (`Array.prototype.flat()`). -/
def flattenOnce (xs : List JValue) : List JValue :=
  xs.flatMap (fun v => match v with | .arr ys => ys | v => [v])

/-- Array-field batch loop of `translateJSONData`: flatten each batch's
values one level, keep the non-blank strings, translate them as one call and
store the whole translated list under the first key of the batch. -/
def arrayBatchesGo (translator : Translator) :
    List (List (String × JValue)) → List (String × JValue) → List TranslateRequest →
    Except String (List (String × JValue) × List TranslateRequest)
  | [], acc, log => .ok (acc, log)
  | batch :: restBatches, acc, log =>
    let batchValues := (batch.map (fun f =>
      match f.2 with | .arr xs => flattenOnce xs | v => [v])).flatten
    let texts := batchValues.filterMap (fun v =>
      match v with
      | .str s => if jsTrim s != "" then some s else none
      | _ => none)
    let req : TranslateRequest := ⟨texts, none, false⟩
    match translator req with
    | .error e => .error e
    | .ok ts =>
      match batch with
      | [] => arrayBatchesGo translator restBatches acc (log ++ [req])
      | (k, _) :: _ =>
        arrayBatchesGo translator restBatches (acc ++ [(k, .arr (ts.map .str))]) (log ++ [req])

/-- Truthiness of `field.context` (an optional string). -/
def contextTruthy (f : FieldToTranslate) : Bool :=
  match f.context with
  | some c => c != ""
  | none => false

/-- Derivation of the index-aligned translation list
(`uniqueFieldsToTranslate.map(f => translationMap.get(f.key) || '')`). -/
def deriveBatchedTranslations (tm : List (String × String))
    (fields : List FieldToTranslate) : List String :=
  fields.map (fun f =>
    match mapGetStr tm f.key with
    | some t => if t == "" then "" else t
    | none => "")

/-- Model of `translateJSONData`: clear the block-content map, collect, run
the array-field batches, the with-context items and the without-context
batches (any provider throw propagates — there is no catch in this
function), derive `batchedTranslations`, and rewrite the tree.
`[...new Set(fieldsToTranslate)]` deduplicates object references, which are
all distinct, so it is the identity.  Returns the rewritten document, the
derived `batchedTranslations` and the provider request log. -/
def translateJSONData (fuel : Nat) (jsonData : JValue) (translator : Translator)
    (deeplApiKey : String) (fk : List FieldKeyDef) (afk : List String) :
    Except String (JValue × List String × List TranslateRequest) :=
  if deeplApiKey == "" then .error "No API key found"
  else
    let st := mapFieldsToTranslate jsonData ((jsonData.getStr "_type").getD "") ""
      fk afk emptyCollectState
    let uniqueFields := st.fields
    match arrayBatchesGo translator (chunkArray st.arrayFields 50) [] [] with
    | .error e => .error e
    | .ok (batchedArrayFieldTranslations, log1) =>
      let itemsWithContext := uniqueFields.filter contextTruthy
      let itemsWithoutContext := uniqueFields.filter (fun f => !contextTruthy f)
      match processItemsWithContext itemsWithContext translator [] log1 with
      | .error e => .error e
      | .ok (tm1, log2) =>
        match processItemsWithoutContext itemsWithoutContext translator tm1 log2 with
        | .error e => .error e
        | .ok (tm2, log3) =>
          let batchedTranslations := deriveBatchedTranslations tm2 uniqueFields
          let rp := replaceTranslations fuel jsonData batchedArrayFieldTranslations
            batchedTranslations st.fields (some tm2) "" afk st.blockMap st.counter
          .ok (rp.1, batchedTranslations, log3)

/-! ## Auxiliary definitions for the verification theorems

Spec-side characterizations, safety predicates and the concrete example
documents used by the theorems below. -/

def safeKeyChar (c : Char) : Bool :=
  ('a' ≤ c && c ≤ 'z') || ('A' ≤ c && c ≤ 'Z') || ('0' ≤ c && c ≤ '9')

def safeTextChar (c : Char) : Bool :=
  !(c == '<' || c == '>' || c == '&' || c == '"' || c == Char.ofNat 39)

def mkUnmarkedSpan (p : String × String) : JValue :=
  .obj [("_type", .str SPAN_TYPE), ("_key", .str p.1), ("text", .str p.2), ("marks", .arr [])]

def mkUnmarkedBlock (key : String) (pairs : List (String × String)) : JValue :=
  .obj [("_type", .str BLOCK_CONTENT_TYPE), ("_key", .str key), ("style", .str "normal"),
        ("markDefs", .arr []), ("children", .arr (pairs.map mkUnmarkedSpan))]

def c2Block : JValue :=
  .obj [("_type", .str "block"), ("_key", .str "b1"), ("style", .str "normal"),
        ("markDefs", .arr []),
        ("children", .arr
          [.obj [("_type", .str "span"), ("_key", .str "s1"),
                 ("text", .str "a"), ("marks", .arr [.str "strong"])],
           .obj [("_type", .str "span"), ("_key", .str "s2"),
                 ("text", .str " "), ("marks", .arr [])],
           .obj [("_type", .str "span"), ("_key", .str "s3"),
                 ("text", .str "b"), ("marks", .arr [.str "strong"])]])]

/-- Detector characterization written from the words of claim C8 (including
the `text`-is-a-string condition that the claim asserts). -/
def specRichTextDetector (v : JValue) : Bool :=
  match v with
  | .arr items =>
    items.length != 0 &&
    items.any (fun item =>
      (item.getStr "_type" == some BLOCK_CONTENT_TYPE) &&
      (match item.getField "children" with
       | some (.arr children) =>
         children.any (fun child =>
           (child.getStr "_type" == some SPAN_TYPE) && (child.getStr "text").isSome)
       | _ => false))
  | _ => false

def c8Value : JValue :=
  .arr [.obj [("_type", .str "block"),
              ("children", .arr [.obj [("_type", .str "span")]])]]

/-- Sequential span replacement as the amended claim C9 words it: each valid
span consumes the next remaining translation (text replaced, marks kept);
non-span children and spans beyond the translation list are left unchanged. -/
def specSeqReplaceSpans : List JValue → List String → List JValue
  | [], _ => []
  | child :: rest, ts =>
    if isValidSpan child then
      match ts with
      | t :: ts' => setSpanText child t :: specSeqReplaceSpans rest ts'
      | [] => child :: specSeqReplaceSpans rest []
    else child :: specSeqReplaceSpans rest ts

def span7 : JValue :=
  .obj [("_type", .str "span"), ("_key", .str "s1"), ("text", .str "Secret"), ("marks", .arr [])]

def block7 : JValue :=
  .obj [("_type", .str "block"), ("_key", .str "b1"), ("style", .str "normal"),
        ("children", .arr [span7]), ("markDefs", .arr [])]

def doc7 : JValue :=
  .obj [("a", .obj [("a", .obj [("_translations", .arr [block7])])])]

def doc1 : JValue := .obj [("_type", .str "page"), ("title", .str "Hello")]

def st1 : CollectState :=
  mapFieldsToTranslate doc1 "page" "" [FieldKeyDef.plain "title"] [] emptyCollectState

def span6 : JValue :=
  .obj [("_type", .str "span"), ("_key", .str "s1"), ("text", .str "   "), ("marks", .arr [])]

def block6 : JValue :=
  .obj [("_type", .str "block"), ("_key", .str "b1"), ("style", .str "normal"),
        ("children", .arr [span6]), ("markDefs", .arr [])]

def doc6 : JValue := .obj [("body", .arr [block6])]

def uuidOrNonBlank (f : FieldToTranslate) : Bool :=
  jsStartsWith f.key "uuid-" || jsTrim f.value != ""

/-- The collector only appends fields that are `uuid-`-keyed or non-blank. -/
def collectsSafe (st stP : CollectState) : Prop :=
  ∀ f ∈ stP.fields, f ∈ st.fields ∨ uuidOrNonBlank f = true

/-! ## Theorems -/

/-! ## Claims -/

/-- Claim C8, counterexample: a block whose only span has no `text` field at
all is accepted by `isBlockContent`, while the claimed characterization
("whose text field is a string") rejects it — the claimed "if and only if"
fails at this value. -/
theorem c8_counterexample :
    isBlockContent c8Value = true ∧ specRichTextDetector c8Value = false := by
  exact ⟨rfl, rfl⟩

/-- Claim C8, amended: `isBlockContent` returns true iff the value is a
non-empty array in which some element has `_type` "block" and a `children`
array containing some element with `_type` "span" — with no condition on the
`text` field. -/
theorem c8_detector_characterization (v : JValue) :
    isBlockContent v = true ↔
      ∃ items, v = JValue.arr items ∧ items ≠ [] ∧
        ∃ item ∈ items, item.getStr "_type" = some BLOCK_CONTENT_TYPE ∧
          ∃ children, item.getField "children" = some (JValue.arr children) ∧
            ∃ child ∈ children, child.getStr "_type" = some SPAN_TYPE := by
  cases v with
  | arr items =>
    simp only [isBlockContent]
    constructor
    · intro h
      split at h
      · exact absurd h (by simp)
      · split at h
        · exact absurd h (by simp)
        · rw [List.any_eq_true] at h
          obtain ⟨item, hmem, hitem⟩ := h
          refine ⟨items, rfl, ?_, item, hmem, ?_⟩
          · rename_i hlen _
            intro hnil
            exact hlen (by simp [hnil])
          · rw [Bool.and_eq_true] at hitem
            obtain ⟨ht, hc⟩ := hitem
            refine ⟨by simpa using ht, ?_⟩
            split at hc
            · rename_i children hchild
              exact ⟨children, hchild, by simpa [List.any_eq_true] using hc⟩
            · exact absurd hc (by simp)
    · rintro ⟨itemsB, heq, hne, item, hmem, ht, children, hch, child, hcmem, hcty⟩
      obtain rfl : items = itemsB := by injection heq
      have hlen : ¬ items.length = 0 := by simpa [List.length_eq_zero] using hne
      simp only [hlen, if_false]
      have hspan : items.any (fun item =>
          (item.getStr "_type" == some BLOCK_CONTENT_TYPE) &&
          match item.getField "children" with
          | some (.arr children) =>
            children.any (fun child => child.getStr "_type" == some SPAN_TYPE)
          | _ => false) = true := by
        rw [List.any_eq_true]
        refine ⟨item, hmem, ?_⟩
        rw [Bool.and_eq_true]
        refine ⟨by simp [ht], ?_⟩
        rw [hch]
        rw [List.any_eq_true]
        exact ⟨child, hcmem, by simp [hcty]⟩
      have hblock : items.any (fun item =>
          item.getStr "_type" == some BLOCK_CONTENT_TYPE) = true := by
        rw [List.any_eq_true]
        exact ⟨item, hmem, by simp [ht]⟩
      simp only [hblock, Bool.not_true, if_false]
      exact hspan
  | str s => simp [isBlockContent]
  | num n => simp [isBlockContent]
  | bool b => simp [isBlockContent]
  | null => simp [isBlockContent]
  | obj fs => simp [isBlockContent]

/-- Concatenating the chunks gives back the list (for a positive chunk size
and enough fuel). -/
theorem chunkArrayGo_flatten (size : Nat) (hsize : 0 < size) :
    ∀ (fuel : Nat) {α : Type} (l : List α), l.length ≤ fuel →
      (chunkArrayGo size fuel l).flatten = l := by
  intro fuel
  induction fuel with
  | zero =>
    intro α l hl
    have : l = [] := List.eq_nil_of_length_eq_zero (Nat.le_zero.mp hl)
    subst this
    rfl
  | succ fuel ih =>
    intro α l hl
    cases l with
    | nil => rfl
    | cons x xs =>
      have hdrop : ((x :: xs).drop size).length ≤ fuel := by
        rw [List.length_drop]
        omega
      calc (chunkArrayGo size (fuel + 1) (x :: xs)).flatten
          = (x :: xs).take size ++ (chunkArrayGo size fuel ((x :: xs).drop size)).flatten := rfl
        _ = (x :: xs).take size ++ (x :: xs).drop size := by rw [ih _ hdrop]
        _ = x :: xs := List.take_append_drop size (x :: xs)

/-- Claim C10: for every list of promises (modelled by their settlements) and
every positive chunk size, `processPromisesInChunks` never rejects — it is a
total function — and resolves with exactly the settlement of each input
promise, one per promise, in input order. -/
theorem c10_all_settled_in_order {α : Type} (promises : List (SettledResult α))
    (chunkSize : Nat) (h : 0 < chunkSize) :
    processPromisesInChunks promises chunkSize = promises := by
  unfold processPromisesInChunks chunkArray
  simp only [List.map_id_fun', List.map_id]
  exact chunkArrayGo_flatten chunkSize h promises.length promises le_rfl

/-- Claim C10, witness: a concrete mixed list with a rejection. -/
theorem c10_witness :
    processPromisesInChunks
      [SettledResult.fulfilled (1 : Nat), SettledResult.rejected "err",
       SettledResult.fulfilled 3] 2 =
      [SettledResult.fulfilled 1, SettledResult.rejected "err",
       SettledResult.fulfilled 3] :=
  c10_all_settled_in_order _ 2 (by decide)

/-- The scanning loop returns the text of the first index in the scanned
range whose map entry is marked `isNormal`. -/
theorem findContextScanGo_eq_find (m : List (Nat × BlockInfo)) :
    ∀ (remaining i : Nat),
      findContextScanGo m i remaining =
        ((List.range' i remaining).find? (fun j =>
          ((blockInfoGet m j).map BlockInfo.isNormal).getD false)).bind
          (fun j => (blockInfoGet m j).map BlockInfo.text) := by
  intro remaining
  induction remaining with
  | zero => intro i; rfl
  | succ remaining ih =>
    intro i
    rw [List.range'_succ]
    simp only [List.find?_cons]
    cases hinfo : blockInfoGet m i with
    | none =>
      simp only [findContextScanGo, hinfo, Option.map_none', Option.getD_none]
      exact ih (i + 1)
    | some info =>
      cases hnorm : info.isNormal with
      | false =>
        simp only [findContextScanGo, hinfo, hnorm, if_false, Option.map_some',
          Option.getD_some]
        exact ih (i + 1)
      | true =>
        simp only [findContextScanGo, hinfo, hnorm, if_true, Option.map_some',
          Option.getD_some, Option.bind_some]
        simp [hinfo]

/-- Claim C3, amended: the context of a header block is the joined text of
the first subsequent block whose first-pass entry is `normal`, scanning past
any intervening header blocks; it is `none` exactly when no such block
follows before the end of the array. -/
theorem c3_context_first_normal (arrayLength : Nat)
    (blockContextMap : List (Nat × BlockInfo)) (blockIndex : Nat) :
    findContextForHeaderBlock arrayLength blockContextMap blockIndex =
      ((List.range' (blockIndex + 1) (arrayLength - (blockIndex + 1))).find?
        (fun j => ((blockInfoGet blockContextMap j).map BlockInfo.isNormal).getD false)).bind
        (fun j => (blockInfoGet blockContextMap j).map BlockInfo.text) :=
  findContextScanGo_eq_find blockContextMap (arrayLength - (blockIndex + 1)) (blockIndex + 1)

/-- Claim C3, counterexample: a header at index 0 followed by another header
at index 1 and a normal block at index 2 receives the normal block's text as
context — the claim asserts it receives none because a header intervenes.
(The same scenario through `processBlockContent`: the `h1` item is pushed
with context `some "Body text"`.) -/
theorem c3_counterexample :
    findContextForHeaderBlock 3
      [(0, ⟨"Main Title", false, true⟩), (1, ⟨"Subtitle", false, true⟩),
       (2, ⟨"Body text", true, false⟩)] 0 = some "Body text" ∧
    ((processBlockContent
        [JValue.obj [("_type", .str "block"), ("style", .str "h1"),
          ("children", .arr [.obj [("_type", .str "span"), ("text", .str "Main Title")]])],
         JValue.obj [("_type", .str "block"), ("style", .str "h2"),
          ("children", .arr [.obj [("_type", .str "span"), ("text", .str "Subtitle")]])],
         JValue.obj [("_type", .str "block"), ("style", .str "normal"),
          ("children", .arr [.obj [("_type", .str "span"), ("text", .str "Body text")]])]]
        "body" "body" none emptyCollectState).fields.map FieldToTranslate.context) =
      [some "Body text", some "Body text", none] := ⟨rfl, rfl⟩

/-- Claim C5, counterexample: an all-caps item *with context* is sent to the
provider as-is (`"HELLO"`, not the lower-cased `"hello"`), and the stored
value is the provider's reply unchanged (`"hallo"`, not `"HALLO"`): the
claimed behaviour does not hold for items with context. -/
theorem c5_counterexample :
    processItemsWithContext [⟨"k", "HELLO", some "greeting", false⟩]
      (fun _ => .ok ["hallo"]) [] [] =
      .ok ([("k", "hallo")], [⟨["HELLO"], some "greeting", false⟩]) := rfl

/-- Claim C5, amended: for a plain item *without context* whose source is
entirely upper-case, the string sent to the provider is the lower-cased
source and the stored value is the provider's reply (with the single
leading/trailing source spaces re-attached) upper-cased. -/
theorem c5_uppercase_without_context (key v t : String)
    (hnb : jsTrim (jsToLower v) ≠ "") (hup : jsToUpper v = v) :
    processItemsWithoutContext [⟨key, v, none, false⟩] (fun _ => .ok [t]) [] [] =
      .ok ([(key, jsToUpper ((if jsStartsWith v " " then " " else "") ++ t ++
                  (if jsEndsWith v " " then " " else "")))],
           [⟨[jsToLower v], none, false⟩]) := by
  have hnb' : (jsTrim (jsToLower v) != "") = true := by
    simpa using hnb
  simp only [processItemsWithoutContext, List.filter, Bool.not_false]
  simp only [chunkArray, chunkArrayGo, List.length_cons, List.length_nil,
    List.take, List.drop, piwcHtmlBatches, piwcRegularBatches, List.map_cons,
    List.map_nil]
  simp [hnb', hup, mapSetStr]

/-- Claim C5, witness: the amended theorem at `"HELLO"` with reply `"hallo"`. -/
theorem c5_witness :
    processItemsWithoutContext [⟨"k", "HELLO", none, false⟩] (fun _ => .ok ["hallo"]) [] [] =
      .ok ([("k", "HALLO")], [⟨["hello"], none, false⟩]) :=
  c5_uppercase_without_context "k" "HELLO" "hallo" (by decide) (by decide)

theorem applySpanTranslationsGo_eq_spec (translations : List String) :
    ∀ (children : List JValue) (i : Nat),
      applySpanTranslationsGo translations children i =
        specSeqReplaceSpans children (translations.drop i) := by
  intro children
  induction children with
  | nil => intro i; rfl
  | cons child rest ih =>
    intro i
    by_cases hv : isValidSpan child
    · by_cases hlt : i < translations.length
      · have hdrop := List.drop_eq_getElem_cons hlt
        have hgetD : translations.getD i "" = translations[i] := by
          simp [List.getD_eq_getElem?_getD, List.getElem?_eq_getElem hlt]
        rw [applySpanTranslationsGo, hdrop]
        simp only [specSeqReplaceSpans, hv, hlt, if_true, Bool.and_self, and_true,
          decide_True, Bool.and_true, hgetD]
        rw [ih]
      · have hdrop : translations.drop i = [] := by
          rw [List.drop_eq_nil_iff]
          omega
        have hdrop1 : translations.drop (i + 1) = [] := by
          rw [List.drop_eq_nil_iff]
          omega
        rw [applySpanTranslationsGo, hdrop]
        simp only [specSeqReplaceSpans, hv, hlt, if_true, if_false, and_false,
          Bool.and_eq_true, decide_eq_true_eq, false_and]
        rw [ih]
        simp [hdrop1, hdrop]
    · rw [applySpanTranslationsGo]
      simp only [specSeqReplaceSpans, hv, Bool.false_and, if_false, Bool.and_eq_true]
      exact congrArg (child :: ·) (ih i)

/-- Claim C9, amended: the non-markup rewrite applies the grouped translated
strings to the block's valid spans sequentially — each valid span's text is
replaced by the next translation while any remain, its marks are untouched,
and every other child (non-span, or beyond the translations) is unchanged. -/
theorem c9_span_application (translations : List String) (children : List JValue) :
    applySpanTranslationsGo translations children 0 =
      specSeqReplaceSpans children translations :=
  applySpanTranslationsGo_eq_spec translations children 0

/-- Claim C9, counterexample: a block with two spans (`"Hello"` marked
`strong`, `"World"` unmarked) receiving the single non-markup translation
`"Bonjour"`: the first span's text is replaced with its marks *kept*
(`["strong"]`, not cleared) and the second span is left entirely unchanged
(not emptied) — contrary to the claimed multi-span policy. -/
theorem c9_counterexample :
    (applyBlockContentTranslations
      [JValue.obj [("_type", .str "block"), ("_key", .str "b"), ("style", .str "normal"),
        ("children", .arr
          [.obj [("_type", .str "span"), ("_key", .str "s1"),
                 ("text", .str "Hello"), ("marks", .arr [.str "strong"])],
           .obj [("_type", .str "span"), ("_key", .str "s2"),
                 ("text", .str "World"), ("marks", .arr [])]])]]
      "body" "body"
      [("k1", ⟨"body", 0, none, false, "body", false⟩)]
      [("k1", "Bonjour")] 0).1 =
    [JValue.obj [("_type", .str "block"), ("_key", .str "b"), ("style", .str "normal"),
      ("children", .arr
        [.obj [("_type", .str "span"), ("_key", .str "s1"),
               ("text", .str "Bonjour"), ("marks", .arr [.str "strong"])],
         .obj [("_type", .str "span"), ("_key", .str "s2"),
               ("text", .str "World"), ("marks", .arr [])]])]] := rfl

/-- Claim C4, counterexample: a document with one translatable field and a
provider that throws: `translateJSONData` rejects with the provider's error —
the run aborts instead of completing with the path absent from the map. -/
theorem c4_counterexample :
    translateJSONData 4 (.obj [("_type", .str "page"), ("title", .str "Hello")])
      (fun _ => .error "quota exceeded") "api-key" [.plain "title"] [] =
      .error "quota exceeded" := rfl

/-- With a provider that always throws, the HTML batch loop either throws or
makes no call at all (every batch was filtered empty). -/
theorem piwcHtmlBatches_const_error (e : String) :
    ∀ (batches : List (List FieldToTranslate)) (tm : List (String × String))
      (log : List TranslateRequest),
      piwcHtmlBatches (fun _ => .error e) batches tm log = .error e ∨
        piwcHtmlBatches (fun _ => .error e) batches tm log = .ok (tm, log) := by
  intro batches
  induction batches with
  | nil => intro tm log; exact Or.inr rfl
  | cons batch rest ih =>
    intro tm log
    by_cases hempty :
        ((batch.map (fun f => (f.value, f.key))).filter (fun p => jsTrim p.1 != "")).isEmpty
    · simpa [piwcHtmlBatches, hempty] using ih tm log
    · simp [piwcHtmlBatches, hempty]

/-- With a provider that always throws, the regular batch loop throws as
soon as some batch contains an item that survives the blank filter. -/
theorem piwcRegularBatches_const_error (e : String) :
    ∀ (batches : List (List FieldToTranslate)) (tm : List (String × String))
      (log : List TranslateRequest) (f : FieldToTranslate),
      (∃ b ∈ batches, f ∈ b) → jsTrim (jsToLower f.value) ≠ "" →
      piwcRegularBatches (fun _ => .error e) batches tm log = .error e := by
  intro batches
  induction batches with
  | nil =>
    intro tm log f hmem _
    simp at hmem
  | cons batch rest ih =>
    intro tm log f hmem hnb
    obtain ⟨b, hb, hfb⟩ := hmem
    rcases List.mem_cons.mp hb with rfl | hbrest
    · have hne : ¬ ((b.map (fun g => (g.value, jsToLower g.value, g.key))).filter
          (fun p => jsTrim p.2.1 != "")).isEmpty := by
        rw [List.isEmpty_iff]
        intro hnil
        have : (f.value, jsToLower f.value, f.key) ∈
            (b.map (fun g => (g.value, jsToLower g.value, g.key))).filter
              (fun p => jsTrim p.2.1 != "") := by
          rw [List.mem_filter]
          exact ⟨List.mem_map_of_mem _ hfb, by simpa using hnb⟩
        rw [hnil] at this
        exact absurd this (List.not_mem_nil _)
      simp [piwcRegularBatches, hne]
    · by_cases hempty :
          ((batch.map (fun g => (g.value, jsToLower g.value, g.key))).filter
            (fun p => jsTrim p.2.1 != "")).isEmpty
      · simpa [piwcRegularBatches, hempty] using ih tm log f ⟨b, hbrest, hfb⟩ hnb
      · simp [piwcRegularBatches, hempty]

/-- Claim C4, amended: a provider failure is not caught at batch granularity —
with a provider that throws on every call, `processItemsWithoutContext`
rejects with that error whenever the items contain at least one plain
(non-HTML) item that survives the blank filter; the exception propagates out
(and `translateJSONData`, which has no catch, aborts the whole run, as the
counterexample shows). -/
theorem c4_batch_failure_aborts (items : List FieldToTranslate) (e : String)
    (f : FieldToTranslate) (hf : f ∈ items) (hplain : f.isHtml = false)
    (hnb : jsTrim (jsToLower f.value) ≠ "")
    (tm : List (String × String)) (log : List TranslateRequest) :
    processItemsWithoutContext items (fun _ => .error e) tm log = .error e := by
  unfold processItemsWithoutContext
  have hreg : f ∈ items.filter (fun g => !g.isHtml) := by
    rw [List.mem_filter]
    exact ⟨hf, by simp [hplain]⟩
  have hjoin : ((chunkArray (items.filter (fun g => !g.isHtml)) 50).flatten) =
      items.filter (fun g => !g.isHtml) :=
    chunkArrayGo_flatten 50 (by decide) _ _ le_rfl
  have hbatch : ∃ b ∈ chunkArray (items.filter (fun g => !g.isHtml)) 50, f ∈ b := by
    have : f ∈ (chunkArray (items.filter (fun g => !g.isHtml)) 50).flatten := by
      rw [hjoin]; exact hreg
    simpa [List.mem_flatten] using this
  dsimp only
  rcases piwcHtmlBatches_const_error e (chunkArray (items.filter (fun g => g.isHtml)) 50)
      tm log with herr | hok
  · rw [herr]
  · rw [hok]
    exact piwcRegularBatches_const_error e _ tm log f hbatch hnb

/-- Claim C4, witness: the amended theorem at a concrete one-item list. -/
theorem c4_witness :
    processItemsWithoutContext [⟨"k", "Hi", none, false⟩] (fun _ => .error "boom") [] [] =
      .error "boom" :=
  c4_batch_failure_aborts [⟨"k", "Hi", none, false⟩] "boom" ⟨"k", "Hi", none, false⟩
    (by decide) rfl (by decide) [] []

/-- Claim C7, counterexample: a block-content array stored under a
`_translations` key of a nested object is recursed into by the collection
pass (`processNestedBlockContent` has no reserved-key check), and its span
text `"Secret"` is read as a translation source. -/
theorem c7_counterexample :
    (mapFieldsToTranslate doc7 "page" "" [FieldKeyDef.plain "title"] []
        emptyCollectState).fields.map (fun f => f.value) = ["Secret"] := rfl

/-- The entry loop of `mapFieldsToTranslate` never reads the value bound to a
`_translations` key: the collected state is the same for any two values at
that position. -/
theorem mfFieldsGo_translations_indep (fs1 : List (String × JValue)) (v w : JValue)
    (fs2 : List (String × JValue)) (pt path : String) (fk : List FieldKeyDef)
    (afk : List String) (st : CollectState) :
    mfFieldsGo (fs1 ++ ("_translations", v) :: fs2) pt path fk afk st =
      mfFieldsGo (fs1 ++ ("_translations", w) :: fs2) pt path fk afk st := by
  induction fs1 generalizing st with
  | nil => exact rfl
  | cons head rest ih =>
    obtain ⟨key, value⟩ := head
    rw [List.cons_append, List.cons_append, mfFieldsGo.eq_def, mfFieldsGo.eq_def]
    dsimp only
    exact ih _

/-- The rewriter's entry loop leaves every `_translations` binding in place,
key and value unchanged, at its original position. -/
theorem replaceFieldsGo_translations_preserved (fs : List (String × JValue))
    (fuel : Nat) (ba : List (String × JValue)) (bt : List String)
    (ftl : List FieldToTranslate) (tm : Option (List (String × String)))
    (path : String) (afk : List String) (bm : List (String × BlockContentMapItem))
    (c : Nat) (i : Nat) (v : JValue)
    (h : fs.get? i = some ("_translations", v)) :
    ((replaceFieldsGo fuel fs ba bt ftl tm path afk bm c).1).get? i =
      some ("_translations", v) := by
  induction fs generalizing fuel c i with
  | nil => simp at h
  | cons head rest ih =>
    obtain ⟨key, value⟩ := head
    cases fuel with
    | zero => exact h
    | succ fuel =>
      cases i with
      | zero =>
        rw [List.get?_cons_zero] at h
        obtain ⟨h1, h2⟩ : key = "_translations" ∧ value = v := by
          have h' := Option.some.inj h
          exact ⟨congrArg Prod.fst h', congrArg Prod.snd h'⟩
        subst h1; subst h2
        exact rfl
      | succ i =>
        rw [List.get?_cons_succ] at h
        exact ih fuel _ i h

/-- Claim C7, amended: the reserved `_translations` key is honoured by the
top-level entry loops of collection and by the rewriter at every depth —
the collector's entry loop is insensitive to the value bound to a
`_translations` key, and the rewriter returns every `_translations` binding
unchanged — but the nested scan `processNestedBlockContent` has no such
check and does read block content stored below a nested `_translations` key
(see the counterexample). -/
theorem c7_translations_guards :
    (∀ (fs1 : List (String × JValue)) (v w : JValue) (fs2 : List (String × JValue))
       (pt path : String) (fk : List FieldKeyDef) (afk : List String) (st : CollectState),
      mfFieldsGo (fs1 ++ ("_translations", v) :: fs2) pt path fk afk st =
        mfFieldsGo (fs1 ++ ("_translations", w) :: fs2) pt path fk afk st) ∧
    (∀ (fs : List (String × JValue)) (fuel : Nat) (ba : List (String × JValue))
       (bt : List String) (ftl : List FieldToTranslate)
       (tm : Option (List (String × String))) (path : String) (afk : List String)
       (bm : List (String × BlockContentMapItem)) (c i : Nat) (v : JValue),
      fs.get? i = some ("_translations", v) →
      ((replaceFieldsGo fuel fs ba bt ftl tm path afk bm c).1).get? i =
        some ("_translations", v)) :=
  ⟨fun fs1 v w fs2 pt path fk afk st =>
      mfFieldsGo_translations_indep fs1 v w fs2 pt path fk afk st,
   fun fs fuel ba bt ftl tm path afk bm c i v h =>
      replaceFieldsGo_translations_preserved fs fuel ba bt ftl tm path afk bm c i v h⟩

/-- Claim C7, witness: the guards at concrete inputs. -/
theorem c7_witness :
    mfFieldsGo [("x", JValue.num 1), ("_translations", JValue.str "a")] "page" ""
        [] [] emptyCollectState =
      mfFieldsGo [("x", JValue.num 1), ("_translations", JValue.str "b")] "page" ""
        [] [] emptyCollectState ∧
    ((replaceFieldsGo 3 [("_translations", JValue.str "x")] [] [] [] none "" [] [] 0).1).get? 0 =
      some ("_translations", JValue.str "x") :=
  ⟨c7_translations_guards.1 [("x", JValue.num 1)] (JValue.str "a") (JValue.str "b")
      [] "page" "" [] [] emptyCollectState,
   c7_translations_guards.2 [("_translations", JValue.str "x")] 3 [] [] [] none "" [] [] 0 0
      (JValue.str "x") rfl⟩

/-- Claim C1, counterexample: collect-then-apply with an empty translation
map is not the identity.  On `{_type: "page", title: "Hello"}` the collector
collects the `title` field; with the empty map, `deriveBatchedTranslations`
yields `[""]`, and the rewriter's index fallback overwrites the field with
the empty string instead of preserving `"Hello"`. -/
theorem c1_counterexample :
    (replaceTranslations 4 doc1 [] (deriveBatchedTranslations [] st1.fields)
        st1.fields (some []) "" [] st1.blockMap st1.counter).1.getStr "title" =
      some "" ∧ doc1.getStr "title" = some "Hello" ∧ ("" : String) ≠ "Hello" :=
  ⟨rfl, rfl, by decide⟩

/-- With no grouped translations, the per-block application loop returns
every block unchanged. -/
theorem applyBlocksGo_nil_id (xs : List JValue) (i c : Nat) :
    applyBlocksGo [] [] xs i c = (xs, c) := by
  induction xs generalizing i c with
  | nil => rfl
  | cons block rest ih =>
    cases block <;>
      simp [applyBlocksGo, htmlMapGet, mapGetPos, ih, ite_self]

/-- With an empty block-content map, `applyBlockContentTranslations` is the
identity on the blocks and the key counter. -/
theorem applyBCT_nil_id (xs : List JValue) (key path : String)
    (m : List (String × String)) (c : Nat) :
    applyBlockContentTranslations xs key path [] m c = (xs, c) := by
  unfold applyBlockContentTranslations
  dsimp only [List.filter_nil]
  rw [groupTranslationsGo]
  exact applyBlocksGo_nil_id xs 0 c

/-- With no collected fields, no block-content map and no batched array
fields, the rewriter is the identity on every tree, for every fuel and any
translation map. -/
theorem replaceGo_empty_id (fuel : Nat) :
    (∀ (d : JValue) (bt : List String) (tm : Option (List (String × String)))
       (path : String) (afk : List String) (c : Nat),
      replaceValueGo fuel d [] bt [] tm path afk [] c = (d, c)) ∧
    (∀ (fs : List (String × JValue)) (bt : List String)
       (tm : Option (List (String × String))) (path : String) (afk : List String) (c : Nat),
      replaceFieldsGo fuel fs [] bt [] tm path afk [] c = (fs, c)) ∧
    (∀ (xs : List JValue) (i : Nat) (bt : List String)
       (tm : Option (List (String × String))) (path : String) (afk : List String) (c : Nat),
      replaceArrGo fuel xs i [] bt [] tm path afk [] c = (xs, c)) := by
  induction fuel with
  | zero =>
    refine ⟨fun d bt tm path afk c => rfl, fun fs bt tm path afk c => rfl,
      fun xs i bt tm path afk c => rfl⟩
  | succ fuel ih =>
    refine ⟨?_, ?_, ?_⟩
    · intro d bt tm path afk c
      cases d with
      | obj fs => simp [replaceValueGo, ih.2.1]
      | arr xs => simp [replaceValueGo, ih.2.2]
      | str s => rfl
      | num n => rfl
      | bool b => rfl
      | null => rfl
    · intro fs bt tm path afk c
      cases fs with
      | nil => rfl
      | cons head rest =>
        obtain ⟨key, value⟩ := head
        by_cases hk : (key == "_translations") = true <;>
          cases value <;> cases tm <;>
            simp [replaceFieldsGo, hk, applyBCT_nil_id, findMatchingField,
              ih.1, ih.2.1, ite_self]
    · intro xs i bt tm path afk c
      cases xs with
      | nil => rfl
      | cons value rest =>
        by_cases hk : (toString i == "_translations") = true <;>
          cases value <;> cases tm <;>
            simp [replaceArrGo, hk, applyBCT_nil_id, findMatchingField,
              ih.1, ih.2.2, ite_self]

/-- Claim C1, amended: collect-then-apply with an empty translation map is
the identity exactly on the trees where the collector found nothing — when
`mapFieldsToTranslate` returns no plain fields and no block-content map
entries, the rewriter (run with the `batchedTranslations` derived from the
empty map) returns the tree deep-equal; when a string field is collected,
the index fallback replaces it by `""` instead (see the counterexample). -/
theorem c1_empty_map_identity (fuel : Nat) (d : JValue) (pt : String)
    (fk : List FieldKeyDef) (afk : List String) (path : String) (c : Nat)
    (h1 : (mapFieldsToTranslate d pt "" fk afk emptyCollectState).fields = [])
    (h2 : (mapFieldsToTranslate d pt "" fk afk emptyCollectState).blockMap = []) :
    replaceTranslations fuel d []
      (deriveBatchedTranslations []
        (mapFieldsToTranslate d pt "" fk afk emptyCollectState).fields)
      (mapFieldsToTranslate d pt "" fk afk emptyCollectState).fields (some []) path afk
      (mapFieldsToTranslate d pt "" fk afk emptyCollectState).blockMap c = (d, c) := by
  rw [h1, h2]
  exact (replaceGo_empty_id fuel).1 d _ (some []) path afk c

/-- Claim C1, witness: the amended identity on a document with no
translatable fields. -/
theorem c1_witness :
    replaceTranslations 3 (.obj [("count", .num 3)]) []
      (deriveBatchedTranslations []
        (mapFieldsToTranslate (.obj [("count", .num 3)]) "page" ""
          [FieldKeyDef.plain "title"] [] emptyCollectState).fields)
      (mapFieldsToTranslate (.obj [("count", .num 3)]) "page" ""
        [FieldKeyDef.plain "title"] [] emptyCollectState).fields (some []) "" []
      (mapFieldsToTranslate (.obj [("count", .num 3)]) "page" ""
        [FieldKeyDef.plain "title"] [] emptyCollectState).blockMap 0 =
      (.obj [("count", .num 3)], 0) :=
  c1_empty_map_identity 3 (.obj [("count", .num 3)]) "page"
    [FieldKeyDef.plain "title"] [] "" 0 rfl rfl

/-- Claim C6, counterexample: the simple (non-HTML) span path of
`processBlockContent` pushes a whitespace-only span text with no emptiness
check: the collector collects `"   "`. -/
theorem c6_counterexample :
    (mapFieldsToTranslate doc6 "page" "" [] [] emptyCollectState).fields.map
        (fun f => f.value) = ["   "] ∧ jsTrim "   " = "" := ⟨rfl, rfl⟩

theorem collectsSafe_refl (st : CollectState) : collectsSafe st st :=
  fun _ hf => Or.inl hf

theorem collectsSafe_trans {a b c : CollectState}
    (h1 : collectsSafe a b) (h2 : collectsSafe b c) : collectsSafe a c :=
  fun f hf =>
    match h2 f hf with
    | .inl h => h1 f h
    | .inr h => Or.inr h

theorem collectsSafe_of_fields_eq {a b : CollectState}
    (h : b.fields = a.fields) : collectsSafe a b :=
  fun f hf => Or.inl (by rw [h] at hf; exact hf)

theorem uuidKey_starts (n : Nat) : jsStartsWith (uuidKey n) "uuid-" = true := by
  rw [jsStartsWith, uuidKey]
  simp [String.data_append, List.isPrefixOf_iff_prefix, List.prefix_append]

theorem collectsSafe_push {st : CollectState} {f : FieldToTranslate}
    (h : uuidOrNonBlank f = true) : collectsSafe st (pushField st f) := by
  intro g hg
  rw [pushField] at hg
  rcases List.mem_append.mp hg with h1 | h2
  · exact Or.inl h1
  · rw [List.mem_singleton] at h2
    subst h2
    exact Or.inr h

theorem uuidOrNonBlank_uuid (n : Nat) (v : String) (ctx : Option String) (b : Bool) :
    uuidOrNonBlank ⟨uuidKey n, v, ctx, b⟩ = true := by
  simp [uuidOrNonBlank, uuidKey_starts n]

theorem simpleSpansGo_safe (nk nap : String) (bi : Nat) (ctx : Option String)
    (ih : Bool) (children : List JValue) (st : CollectState) :
    collectsSafe st (simpleSpansGo nk nap bi ctx ih children st) := by
  induction children generalizing st with
  | nil => exact collectsSafe_refl st
  | cons child rest ihc =>
    rw [simpleSpansGo]
    refine collectsSafe_trans ?_ (ihc _)
    split
    · refine collectsSafe_trans (collectsSafe_trans
        (collectsSafe_of_fields_eq rfl)
        (collectsSafe_push (uuidOrNonBlank_uuid _ _ _ _)))
        (collectsSafe_of_fields_eq rfl)
    · exact collectsSafe_refl st

theorem customNestedSpanChildren_safe (fk cbap : String) (cbi : Nat)
    (children : List JValue) (st : CollectState) :
    collectsSafe st (customNestedSpanChildren fk cbap cbi children st) := by
  induction children generalizing st with
  | nil => exact collectsSafe_refl st
  | cons child rest ihc =>
    rw [customNestedSpanChildren]
    refine collectsSafe_trans ?_ (ihc _)
    split
    · refine collectsSafe_trans (collectsSafe_trans
        (collectsSafe_of_fields_eq rfl)
        (collectsSafe_push (uuidOrNonBlank_uuid _ _ _ _)))
        (collectsSafe_of_fields_eq rfl)
    · exact collectsSafe_refl st

theorem customNestedContentBlocks_safe (fk cbap : String)
    (blocks : List JValue) (i : Nat) (st : CollectState) :
    collectsSafe st (customNestedContentBlocks fk cbap blocks i st) := by
  induction blocks generalizing i st with
  | nil => exact collectsSafe_refl st
  | cons b rest ihb =>
    rw [customNestedContentBlocks]
    refine collectsSafe_trans ?_ (ihb _ _)
    split
    · split
      · exact customNestedSpanChildren_safe _ _ _ _ _
      · exact collectsSafe_refl st
    · exact collectsSafe_refl st

set_option maxHeartbeats 3200000 in
mutual

theorem mapFieldsToTranslate_safe (data : JValue) (pt path : String)
    (fk : List FieldKeyDef) (afk : List String) (st : CollectState) :
    collectsSafe st (mapFieldsToTranslate data pt path fk afk st) := by
  cases data with
  | obj fs => exact mfFieldsGo_safe fs pt path fk afk st
  | arr xs => exact mfArrGo_safe xs 0 pt path fk afk st
  | str s => exact collectsSafe_refl st
  | num n => exact collectsSafe_refl st
  | bool b => exact collectsSafe_refl st
  | null => exact collectsSafe_refl st

theorem mfFieldsGo_safe (fs : List (String × JValue)) (pt path : String)
    (fk : List FieldKeyDef) (afk : List String) (st : CollectState) :
    collectsSafe st (mfFieldsGo fs pt path fk afk st) := by
  cases fs with
  | nil => exact collectsSafe_refl st
  | cons head rest =>
    obtain ⟨key, value⟩ := head
    rw [mfFieldsGo.eq_def]
    dsimp only
    refine collectsSafe_trans ?_ (mfFieldsGo_safe rest pt path fk afk _)
    split
    · exact collectsSafe_refl st
    · cases value with
      | arr xs =>
        dsimp only
        split
        · exact processBlocksGo_safe xs.length (buildBlockContextMap xs 0) key
            (joinPath path key) (some fk) xs 0 st
        · split
          · exact collectsSafe_of_fields_eq rfl
          · exact collectsSafe_trans (processNestedBlockContent_safe (.arr xs) key path (some fk) st)
              (mapFieldsToTranslate_safe (.arr xs) _ (joinPath path key) fk afk _)
      | obj gs =>
        exact collectsSafe_trans (processNestedBlockContent_safe (.obj gs) key path (some fk) st)
          (mapFieldsToTranslate_safe (.obj gs) _ (joinPath path key) fk afk _)
      | null => exact collectsSafe_refl st
      | str s =>
        dsimp only
        split
        · split
          · next hg =>
              refine collectsSafe_push ?_
              simp only [uuidOrNonBlank]
              simp at hg ⊢
              exact Or.inr hg.2
          · exact collectsSafe_refl st
        · exact collectsSafe_refl st
      | num n => exact collectsSafe_refl st
      | bool b => exact collectsSafe_refl st

theorem mfArrGo_safe (xs : List JValue) (i : Nat) (pt path : String)
    (fk : List FieldKeyDef) (afk : List String) (st : CollectState) :
    collectsSafe st (mfArrGo xs i pt path fk afk st) := by
  cases xs with
  | nil => exact collectsSafe_refl st
  | cons value rest =>
    rw [mfArrGo.eq_def]
    dsimp only
    refine collectsSafe_trans ?_ (mfArrGo_safe rest (i + 1) pt path fk afk _)
    cases value with
    | arr ys =>
      dsimp only
      split
      · exact processBlocksGo_safe ys.length (buildBlockContextMap ys 0) (toString i)
          (joinPath path (toString i)) (some fk) ys 0 st
      · split
        · exact collectsSafe_of_fields_eq rfl
        · exact collectsSafe_trans
            (processNestedBlockContent_safe (.arr ys) (toString i) path (some fk) st)
            (mapFieldsToTranslate_safe (.arr ys) _ (joinPath path (toString i)) fk afk _)
    | obj gs =>
      exact collectsSafe_trans
        (processNestedBlockContent_safe (.obj gs) (toString i) path (some fk) st)
        (mapFieldsToTranslate_safe (.obj gs) _ (joinPath path (toString i)) fk afk _)
    | null => exact collectsSafe_refl st
    | str s =>
      dsimp only
      split
      · split
        · next hg =>
            refine collectsSafe_push ?_
            simp only [uuidOrNonBlank]
            simp at hg ⊢
            exact Or.inr hg.2
        · exact collectsSafe_refl st
      · exact collectsSafe_refl st
    | num n => exact collectsSafe_refl st
    | bool b => exact collectsSafe_refl st

theorem processNestedBlockContent_safe (object : JValue) (key path : String)
    (tfk : Option (List FieldKeyDef)) (st : CollectState) :
    collectsSafe st (processNestedBlockContent object key path tfk st) := by
  cases object with
  | obj fs => exact pnbcLookupGo_safe fs key path tfk st
  | arr xs =>
    rw [processNestedBlockContent.eq_def]
    dsimp only
    split
    · exact pnbcNthGo_safe xs _ key path tfk st
    · exact collectsSafe_refl st
  | str s => exact collectsSafe_refl st
  | num n => exact collectsSafe_refl st
  | bool b => exact collectsSafe_refl st
  | null => exact collectsSafe_refl st

theorem pnbcLookupGo_safe (fs : List (String × JValue)) (key path : String)
    (tfk : Option (List FieldKeyDef)) (st : CollectState) :
    collectsSafe st (pnbcLookupGo fs key path tfk st) := by
  cases fs with
  | nil => exact collectsSafe_refl st
  | cons head rest =>
    obtain ⟨k, v⟩ := head
    rw [pnbcLookupGo.eq_def]
    dsimp only
    split
    · cases v with
      | null => exact collectsSafe_refl st
      | obj gs => exact pnbcValueGo_safe (.obj gs) key (joinPath path key) tfk st
      | arr ys => exact pnbcValueGo_safe (.arr ys) key (joinPath path key) tfk st
      | str s => exact pnbcValueGo_safe (.str s) key (joinPath path key) tfk st
      | num n => exact pnbcValueGo_safe (.num n) key (joinPath path key) tfk st
      | bool b => exact pnbcValueGo_safe (.bool b) key (joinPath path key) tfk st
    · exact pnbcLookupGo_safe rest key path tfk st

theorem pnbcNthGo_safe (xs : List JValue) (n : Nat) (key path : String)
    (tfk : Option (List FieldKeyDef)) (st : CollectState) :
    collectsSafe st (pnbcNthGo xs n key path tfk st) := by
  cases xs with
  | nil => exact collectsSafe_refl st
  | cons v rest =>
    cases n with
    | zero =>
      cases v with
      | null => exact collectsSafe_refl st
      | obj gs => exact pnbcValueGo_safe (.obj gs) key (joinPath path key) tfk st
      | arr ys => exact pnbcValueGo_safe (.arr ys) key (joinPath path key) tfk st
      | str s => exact pnbcValueGo_safe (.str s) key (joinPath path key) tfk st
      | num m => exact pnbcValueGo_safe (.num m) key (joinPath path key) tfk st
      | bool b => exact pnbcValueGo_safe (.bool b) key (joinPath path key) tfk st
    | succ m => exact pnbcNthGo_safe rest m key path tfk st

theorem pnbcValueGo_safe (value : JValue) (key cp : String)
    (tfk : Option (List FieldKeyDef)) (st : CollectState) :
    collectsSafe st (pnbcValueGo value key cp tfk st) := by
  cases value with
  | arr xs =>
    rw [pnbcValueGo.eq_def]
    dsimp only
    split
    · exact processBlocksGo_safe xs.length (buildBlockContextMap xs 0) key cp tfk xs 0 st
    · exact pnbcArrChildrenGo_safe xs 0 cp tfk st
  | obj fs => exact pnbcObjChildrenGo_safe fs cp tfk st
  | str s => exact collectsSafe_refl st
  | num n => exact collectsSafe_refl st
  | bool b => exact collectsSafe_refl st
  | null => exact collectsSafe_refl st

theorem pnbcObjChildrenGo_safe (fs : List (String × JValue)) (cp : String)
    (tfk : Option (List FieldKeyDef)) (st : CollectState) :
    collectsSafe st (pnbcObjChildrenGo fs cp tfk st) := by
  cases fs with
  | nil => exact collectsSafe_refl st
  | cons head rest =>
    obtain ⟨nk, w⟩ := head
    rw [pnbcObjChildrenGo.eq_def]
    dsimp only
    refine collectsSafe_trans ?_ (pnbcObjChildrenGo_safe rest cp tfk _)
    cases w with
    | null => exact collectsSafe_refl st
    | obj gs => exact pnbcValueGo_safe (.obj gs) nk (joinPath cp nk) tfk st
    | arr ys => exact pnbcValueGo_safe (.arr ys) nk (joinPath cp nk) tfk st
    | str s => exact pnbcValueGo_safe (.str s) nk (joinPath cp nk) tfk st
    | num n => exact pnbcValueGo_safe (.num n) nk (joinPath cp nk) tfk st
    | bool b => exact pnbcValueGo_safe (.bool b) nk (joinPath cp nk) tfk st

theorem pnbcArrChildrenGo_safe (xs : List JValue) (i : Nat) (cp : String)
    (tfk : Option (List FieldKeyDef)) (st : CollectState) :
    collectsSafe st (pnbcArrChildrenGo xs i cp tfk st) := by
  cases xs with
  | nil => exact collectsSafe_refl st
  | cons w rest =>
    rw [pnbcArrChildrenGo.eq_def]
    dsimp only
    refine collectsSafe_trans ?_ (pnbcArrChildrenGo_safe rest (i + 1) cp tfk _)
    cases w with
    | null => exact collectsSafe_refl st
    | obj gs => exact pnbcValueGo_safe (.obj gs) (toString i) (joinPath cp (toString i)) tfk st
    | arr ys => exact pnbcValueGo_safe (.arr ys) (toString i) (joinPath cp (toString i)) tfk st
    | str s => exact pnbcValueGo_safe (.str s) (toString i) (joinPath cp (toString i)) tfk st
    | num n => exact pnbcValueGo_safe (.num n) (toString i) (joinPath cp (toString i)) tfk st
    | bool b => exact pnbcValueGo_safe (.bool b) (toString i) (joinPath cp (toString i)) tfk st

theorem processBlocksGo_safe (len : Nat) (ctxMap : List (Nat × BlockInfo))
    (nk nap : String) (tfk : Option (List FieldKeyDef))
    (blocks : List JValue) (i : Nat) (st : CollectState) :
    collectsSafe st (processBlocksGo len ctxMap nk nap tfk blocks i st) := by
  cases blocks with
  | nil => exact collectsSafe_refl st
  | cons block rest =>
    rw [processBlocksGo.eq_def]
    dsimp only
    refine collectsSafe_trans ?_ (processBlocksGo_safe len ctxMap nk nap tfk rest (i + 1) _)
    split
    · split
      · exact collectsSafe_refl st
      · split
        · exact collectsSafe_trans (collectsSafe_trans
            (collectsSafe_of_fields_eq rfl)
            (collectsSafe_push (uuidOrNonBlank_uuid _ _ _ _)))
            (collectsSafe_of_fields_eq rfl)
        · split
          · exact simpleSpansGo_safe _ _ _ _ _ _ _
          · exact collectsSafe_refl st
    · split
      · exact processCustomBlockType_safe block i nap (tfk.getD []) st
      · exact collectsSafe_refl st

theorem processCustomBlockType_safe (block : JValue) (blockIndex : Nat)
    (nap : String) (fkp : List FieldKeyDef) (st : CollectState) :
    collectsSafe st (processCustomBlockType block blockIndex nap fkp st) := by
  cases block with
  | obj fs => exact pcbtFieldsGo_safe _ blockIndex nap fkp fs st
  | arr xs => exact collectsSafe_refl st
  | str s => exact collectsSafe_refl st
  | num n => exact collectsSafe_refl st
  | bool b => exact collectsSafe_refl st
  | null => exact collectsSafe_refl st

theorem pcbtFieldsGo_safe (blockType : String) (blockIndex : Nat) (nap : String)
    (fkp : List FieldKeyDef) (fs : List (String × JValue)) (st : CollectState) :
    collectsSafe st (pcbtFieldsGo blockType blockIndex nap fkp fs st) := by
  cases fs with
  | nil => exact collectsSafe_refl st
  | cons head rest =>
    obtain ⟨fieldKey, fieldValue⟩ := head
    cases fieldValue with
    | str s =>
      have he : pcbtFieldsGo blockType blockIndex nap fkp ((fieldKey, .str s) :: rest) st =
          if jsStartsWith fieldKey "_" then
            pcbtFieldsGo blockType blockIndex nap fkp rest st
          else
            pcbtFieldsGo blockType blockIndex nap fkp rest
              (match findFieldDef fkp fieldKey with
               | some fd =>
                 let isTranslatable := match fd with
                   | .plain _ => true
                   | .typed tys _ => tys.contains blockType
                 if isTranslatable && jsTrim s != "" then
                   pushField st
                     ⟨nap ++ "." ++ toString blockIndex ++ "." ++ fieldKey, s, none, false⟩
                 else st
               | none => st) := rfl
      rw [he]
      split
      · exact pcbtFieldsGo_safe blockType blockIndex nap fkp rest st
      · refine collectsSafe_trans ?_ (pcbtFieldsGo_safe blockType blockIndex nap fkp rest _)
        split <;> (try dsimp only) <;> (try split) <;>
          first
          | exact collectsSafe_refl st
          | (rename_i hg
             refine collectsSafe_push ?_
             simp only [uuidOrNonBlank]
             simp at hg ⊢
             exact Or.inr hg.2)
    | arr xs =>
      have he : pcbtFieldsGo blockType blockIndex nap fkp ((fieldKey, .arr xs) :: rest) st =
          if jsStartsWith fieldKey "_" then
            pcbtFieldsGo blockType blockIndex nap fkp rest st
          else
            pcbtFieldsGo blockType blockIndex nap fkp rest
              (if isBlockContent (.arr xs) then
                customNestedContentBlocks fieldKey
                  (nap ++ "." ++ toString blockIndex ++ "." ++ fieldKey) xs 0
                  (match findFieldDef fkp fieldKey with
                   | some _ => st
                   | none => st)
               else
                (match findFieldDef fkp fieldKey with
                 | some _ => st
                 | none => st)) := rfl
      rw [he]
      split
      · exact pcbtFieldsGo_safe blockType blockIndex nap fkp rest st
      · refine collectsSafe_trans ?_ (pcbtFieldsGo_safe blockType blockIndex nap fkp rest _)
        split
        · refine collectsSafe_trans ?_ (customNestedContentBlocks_safe _ _ xs 0 _)
          split
          · exact collectsSafe_refl st
          · exact collectsSafe_refl st
        · split
          · exact collectsSafe_refl st
          · exact collectsSafe_refl st
    | obj gs =>
      have he : pcbtFieldsGo blockType blockIndex nap fkp ((fieldKey, .obj gs) :: rest) st =
          if jsStartsWith fieldKey "_" then
            pcbtFieldsGo blockType blockIndex nap fkp rest st
          else
            pcbtFieldsGo blockType blockIndex nap fkp rest
              (pnofFieldsGo ((fieldsGetStr gs "_type").getD "")
                (nap ++ "." ++ toString blockIndex ++ "." ++ fieldKey) fkp gs
                (match findFieldDef fkp fieldKey with
                 | some _ => st
                 | none => st)) := rfl
      rw [he]
      split
      · exact pcbtFieldsGo_safe blockType blockIndex nap fkp rest st
      · refine collectsSafe_trans ?_ (pcbtFieldsGo_safe blockType blockIndex nap fkp rest _)
        refine collectsSafe_trans ?_ (pnofFieldsGo_safe _ _ fkp gs _)
        split
        · exact collectsSafe_refl st
        · exact collectsSafe_refl st
    | num n =>
      have he : pcbtFieldsGo blockType blockIndex nap fkp ((fieldKey, .num n) :: rest) st =
          if jsStartsWith fieldKey "_" then
            pcbtFieldsGo blockType blockIndex nap fkp rest st
          else
            pcbtFieldsGo blockType blockIndex nap fkp rest
              (match findFieldDef fkp fieldKey with
               | some _ => st
               | none => st) := rfl
      rw [he]
      split
      · exact pcbtFieldsGo_safe blockType blockIndex nap fkp rest st
      · refine collectsSafe_trans ?_ (pcbtFieldsGo_safe blockType blockIndex nap fkp rest _)
        split
        · exact collectsSafe_refl st
        · exact collectsSafe_refl st
    | bool b =>
      have he : pcbtFieldsGo blockType blockIndex nap fkp ((fieldKey, .bool b) :: rest) st =
          if jsStartsWith fieldKey "_" then
            pcbtFieldsGo blockType blockIndex nap fkp rest st
          else
            pcbtFieldsGo blockType blockIndex nap fkp rest
              (match findFieldDef fkp fieldKey with
               | some _ => st
               | none => st) := rfl
      rw [he]
      split
      · exact pcbtFieldsGo_safe blockType blockIndex nap fkp rest st
      · refine collectsSafe_trans ?_ (pcbtFieldsGo_safe blockType blockIndex nap fkp rest _)
        split
        · exact collectsSafe_refl st
        · exact collectsSafe_refl st
    | null =>
      have he : pcbtFieldsGo blockType blockIndex nap fkp ((fieldKey, .null) :: rest) st =
          if jsStartsWith fieldKey "_" then
            pcbtFieldsGo blockType blockIndex nap fkp rest st
          else
            pcbtFieldsGo blockType blockIndex nap fkp rest
              (match findFieldDef fkp fieldKey with
               | some _ => st
               | none => st) := rfl
      rw [he]
      split
      · exact pcbtFieldsGo_safe blockType blockIndex nap fkp rest st
      · refine collectsSafe_trans ?_ (pcbtFieldsGo_safe blockType blockIndex nap fkp rest _)
        split
        · exact collectsSafe_refl st
        · exact collectsSafe_refl st

theorem pnofFieldsGo_safe (objType basePath : String) (fkp : List FieldKeyDef)
    (fs : List (String × JValue)) (st : CollectState) :
    collectsSafe st (pnofFieldsGo objType basePath fkp fs st) := by
  cases fs with
  | nil => exact collectsSafe_refl st
  | cons head rest =>
    obtain ⟨key, value⟩ := head
    rw [pnofFieldsGo.eq_def]
    dsimp only
    split
    · exact pnofFieldsGo_safe objType basePath fkp rest st
    · refine collectsSafe_trans ?_ (pnofFieldsGo_safe objType basePath fkp rest _)
      cases value with
      | str s =>
        dsimp only
        split
        · next ht =>
            split
            · split
              · refine collectsSafe_push ?_
                simp only [uuidOrNonBlank]
                simp at ht ⊢
                exact Or.inr ht
              · exact collectsSafe_refl st
            · exact collectsSafe_refl st
        · exact collectsSafe_refl st
      | obj gs => exact pnofFieldsGo_safe _ _ fkp gs st
      | arr xs =>
        dsimp only
        split
        · exact processBlocksGo_safe xs.length (buildBlockContextMap xs 0) key
            (basePath ++ "." ++ key) (some fkp) xs 0 st
        · exact collectsSafe_refl st
      | num n => exact collectsSafe_refl st
      | bool b => exact collectsSafe_refl st
      | null => exact collectsSafe_refl st

end

/-- Claim C6, amended: every entry the collector emits either carries a
generated `uuid-` key (the rich-text span and HTML paths, which perform no
blank check — see the counterexample) or is a plain string field whose value
is not empty and not whitespace-only. -/
theorem c6_plain_fields_non_blank (d : JValue) (pt path : String)
    (fk : List FieldKeyDef) (afk : List String) :
    ∀ f ∈ (mapFieldsToTranslate d pt path fk afk emptyCollectState).fields,
      jsStartsWith f.key "uuid-" = true ∨ jsTrim f.value ≠ "" := by
  intro f hf
  rcases mapFieldsToTranslate_safe d pt path fk afk emptyCollectState f hf with h | h
  · exact absurd h (List.not_mem_nil f)
  · simp only [uuidOrNonBlank] at h
    simp at h
    rcases h with h1 | h2
    · exact Or.inl h1
    · exact Or.inr h2

/-- Claim C6, witness: the amended property at a collected plain field. -/
theorem c6_witness :
    jsStartsWith ((⟨"title", "Hello", none, false⟩ : FieldToTranslate)).key "uuid-" = true ∨
      jsTrim ((⟨"title", "Hello", none, false⟩ : FieldToTranslate)).value ≠ "" :=
  c6_plain_fields_non_blank (.obj [("_type", .str "page"), ("title", .str "Hello")])
    "page" "" [FieldKeyDef.plain "title"] [] ⟨"title", "Hello", none, false⟩ (by decide)

theorem escapeHtmlChar_safe (c : Char) (h : safeTextChar c = true) :
    escapeHtmlChar c = String.mk [c] := by
  simp only [safeTextChar, Bool.not_eq_eq_eq_not, Bool.not_true, Bool.or_eq_false_iff] at h
  obtain ⟨⟨⟨⟨h1, h2⟩, h3⟩, h4⟩, h5⟩ := h
  rw [escapeHtmlChar]
  rw [if_neg (by simpa using h3), if_neg (by simpa using h1), if_neg (by simpa using h2),
    if_neg (by simpa using h4), if_neg (by simpa using h5)]

theorem join_data (l : List String) : (String.join l).data = (l.map String.data).flatten := by
  have hgen : ∀ (acc : String),
      (l.foldl (· ++ ·) acc).data = acc.data ++ (l.map String.data).flatten := by
    induction l with
    | nil => intro acc; simp
    | cons s rest ih =>
      intro acc
      rw [List.foldl_cons, ih, String.data_append]
      simp
  rw [String.join]
  simpa using hgen ""

theorem escapeHtml_safe (s : String) (h : ∀ c ∈ s.data, safeTextChar c = true) :
    escapeHtml s = s := by
  apply String.ext
  rw [escapeHtml, join_data]
  have hmap : (s.data.map escapeHtmlChar).map String.data = s.data.map (fun c => [c]) := by
    rw [List.map_map]
    apply List.map_congr_left
    intro c hc
    rw [Function.comp_apply, escapeHtmlChar_safe c (h c hc)]
  rw [hmap]
  induction s.data with
  | nil => rfl
  | cons c cs ih => simp_all

theorem renderSpanHtml_unmarked (p : String × String) :
    renderSpanHtml [] (mkUnmarkedSpan p) = escapeHtml p.2 := rfl

theorem not_prefixOf_of_mismatch_at (pat hay rest : List Char) (j : Nat)
    (hj : j < pat.length) (hjh : j < hay.length)
    (hne : pat.get ⟨j, hj⟩ ≠ hay.get ⟨j, hjh⟩) :
    pat.isPrefixOf (hay ++ rest) = false := by
  by_contra hcon
  rw [Bool.not_eq_false] at hcon
  have hp : pat <+: hay ++ rest := List.isPrefixOf_iff_prefix.mp hcon
  have h1 : pat.get ⟨j, hj⟩ = (hay ++ rest).get ⟨j, by
      rw [List.length_append]; omega⟩ := by
    simpa [List.get_eq_getElem] using hp.getElem hj
  have h2 : (hay ++ rest).get ⟨j, by rw [List.length_append]; omega⟩ =
      hay.get ⟨j, hjh⟩ := by
    simpa [List.get_eq_getElem] using List.getElem_append_left hjh
  exact hne (h1.trans h2)

theorem safeKeyChar_ne (c : Char) (h : safeKeyChar c = true) :
    c ≠ '<' ∧ c ≠ '>' ∧ c ≠ '"' ∧ c ≠ '-' ∧ c ≠ '&' := by
  refine ⟨?_, ?_, ?_, ?_, ?_⟩ <;>
    (rintro rfl; simp [safeKeyChar] at h)

theorem safeTextChar_ne (c : Char) (h : safeTextChar c = true) :
    c ≠ '<' ∧ c ≠ '>' ∧ c ≠ '"' ∧ c ≠ '&' := by
  simp only [safeTextChar, Bool.not_eq_eq_eq_not, Bool.not_true, Bool.or_eq_false_iff] at h
  obtain ⟨⟨⟨⟨h1, h2⟩, h3⟩, h4⟩, h5⟩ := h
  exact ⟨by simpa using h1, by simpa using h2, by simpa using h4, by simpa using h3⟩

theorem pat_not_prefixOf_in_safeKey (pat K rest : List Char)
    (hpat4 : 4 < pat.length)
    (hdash : pat.get ⟨4, hpat4⟩ = '-')
    (hpatq : ∀ (j : Nat) (hjp : j < pat.length), j ≤ 4 → pat.get ⟨j, hjp⟩ ≠ '"')
    (hK : ∀ c ∈ K, safeKeyChar c = true)
    (hrest : ∃ r2, rest = '"' :: r2)
    (i : Nat) (_hi : i < K.length) :
    pat.isPrefixOf (K.drop i ++ rest) = false := by
  by_contra hcon
  rw [Bool.not_eq_false] at hcon
  have hp : pat <+: (K.drop i ++ rest) := List.isPrefixOf_iff_prefix.mp hcon
  obtain ⟨r2, rfl⟩ := hrest
  have hdlen : (K.drop i).length = K.length - i := List.length_drop i K
  by_cases hlong : 5 ≤ K.length - i
  · -- index 4 falls inside the key: a key character would have to be '-'
    have h4d : 4 < (K.drop i).length := by omega
    have h4all : 4 < (K.drop i ++ '"' :: r2).length := by
      rw [List.length_append]; omega
    have heq : pat.get ⟨4, hpat4⟩ = (K.drop i).get ⟨4, h4d⟩ := by
      have hg := hp.getElem hpat4
      have hg2 : (K.drop i ++ '"' :: r2).get ⟨4, h4all⟩ = (K.drop i).get ⟨4, h4d⟩ := by
        simpa [List.get_eq_getElem] using List.getElem_append_left h4d
      simpa [List.get_eq_getElem] using hg.trans (by simpa [List.get_eq_getElem] using hg2)
    have hmem : (K.drop i).get ⟨4, h4d⟩ ∈ K :=
      List.mem_of_mem_drop (List.get_mem _ _ _)
    have := (safeKeyChar_ne _ (hK _ hmem)).2.2.2.1
    rw [hdash] at heq
    exact this heq.symm
  · -- the key suffix is short: position (K.drop i).length is the closing quote
    have hj4 : (K.drop i).length ≤ 4 := by omega
    have hjp : (K.drop i).length < pat.length := by omega
    have hjall : (K.drop i).length < (K.drop i ++ '"' :: r2).length := by
      rw [List.length_append]; simp
    have hq : (K.drop i ++ '"' :: r2).get ⟨(K.drop i).length, hjall⟩ = '"' := by
      rw [List.get_eq_getElem]
      rw [List.getElem_append_right (le_refl (K.drop i).length)]
      simp
    have heq : pat.get ⟨(K.drop i).length, hjp⟩ = '"' := by
      have hg := hp.getElem hjp
      rw [← hq]
      simpa [List.get_eq_getElem] using hg
    exact hpatq (K.drop i).length hjp hj4 heq

theorem firstAttrCapture_append (attrLit pre rest : List Char)
    (h : ∀ i, i < pre.length → attrLit.isPrefixOf (pre.drop i ++ rest) = false) :
    firstAttrCapture attrLit (pre ++ rest) = firstAttrCapture attrLit rest := by
  induction pre with
  | nil => rfl
  | cons c cs ih =>
    rw [List.cons_append, firstAttrCapture]
    have h0 := h 0 (by simp)
    simp only [List.drop_zero, List.cons_append] at h0
    rw [h0]
    simp only [Bool.false_eq_true, if_false]
    exact ih (fun i hi => by
      have := h (i + 1) (by simpa using Nat.succ_lt_succ hi)
      simpa using this)

theorem takeWhile_until_quote (captured rest : List Char)
    (h : ∀ c ∈ captured, c ≠ '"') :
    (captured ++ '"' :: rest).takeWhile (· ≠ '"') = captured := by
  induction captured with
  | nil => simp [List.takeWhile]
  | cons c cs ih =>
    rw [List.cons_append, List.takeWhile_cons]
    have hc : c ≠ '"' := h c (List.mem_cons_self c cs)
    have ih2 := ih (fun d hd => h d (List.mem_cons_of_mem c hd))
    simp [hc]
    simpa using ih2

theorem firstAttrCapture_at (attrLit captured rest : List Char) (a : Char) (as : List Char)
    (hlit : attrLit = a :: as)
    (hnq : ∀ c ∈ captured, c ≠ '"') :
    firstAttrCapture attrLit (attrLit ++ (captured ++ '"' :: rest)) =
      some (String.mk captured) := by
  subst hlit
  rw [List.cons_append, firstAttrCapture]
  have hpre : (a :: as).isPrefixOf ((a :: as) ++ (captured ++ '"' :: rest)) = true := by
    rw [List.isPrefixOf_iff_prefix]
    exact List.prefix_append _ _
  rw [← List.cons_append, hpre]
  simp only [if_true]
  rw [List.drop_left]
  rw [takeWhile_until_quote captured rest hnq]
  rw [List.drop_left]
  rfl

theorem attemptTagAt_none_not_lt (tag : List Char) (c : Char) (rest : List Char)
    (h : c ≠ '<') : attemptTagAt tag (c :: rest) = none := by
  rw [attemptTagAt.eq_def]
  split
  · next heq => exact absurd (List.head_eq_of_cons_eq heq.symm).symm h
  · rfl

theorem attemptAttrTagAt_none_not_lt (name attrLit : List Char) (c : Char)
    (rest : List Char) (h : c ≠ '<') :
    attemptAttrTagAt name attrLit (c :: rest) = none := by
  rw [attemptAttrTagAt.eq_def]
  split
  · next heq => exact absurd (List.head_eq_of_cons_eq heq.symm).symm h
  · rfl

theorem scanTagGo_no_lt (tag : List Char) (mark : String) (fuel : Nat)
    (cs : List Char) (i : Nat) (h : ∀ c ∈ cs, c ≠ '<') :
    scanTagGo tag mark fuel cs i = [] := by
  induction cs generalizing fuel i with
  | nil => cases fuel <;> rfl
  | cons c rest ih =>
    cases fuel with
    | zero => rfl
    | succ fuel =>
      rw [scanTagGo]
      rw [attemptTagAt_none_not_lt tag c rest (h c (List.mem_cons_self c rest))]
      exact ih fuel (i + 1) (fun d hd => h d (List.mem_cons_of_mem c hd))

theorem scanAttrTagGo_no_lt (name attrLit : List Char) (fuel : Nat)
    (cs : List Char) (i : Nat) (h : ∀ c ∈ cs, c ≠ '<') :
    scanAttrTagGo name attrLit fuel cs i = [] := by
  induction cs generalizing fuel i with
  | nil => cases fuel <;> rfl
  | cons c rest ih =>
    cases fuel with
    | zero => rfl
    | succ fuel =>
      rw [scanAttrTagGo]
      rw [attemptAttrTagAt_none_not_lt name attrLit c rest (h c (List.mem_cons_self c rest))]
      exact ih fuel (i + 1) (fun d hd => h d (List.mem_cons_of_mem c hd))

theorem attemptTagAt_none_tag_mismatch (tag : List Char) (rest : List Char)
    (h : tag.isPrefixOf rest = false) : attemptTagAt tag ('<' :: rest) = none := by
  rw [attemptTagAt.eq_def]
  split
  · next heq =>
      have ht := List.tail_eq_of_cons_eq heq
      rw [ht] at h
      rw [h]
      simp
  · rfl

theorem attemptAttrTagAt_none_tag_mismatch (name attrLit : List Char) (rest : List Char)
    (h : name.isPrefixOf rest = false) :
    attemptAttrTagAt name attrLit ('<' :: rest) = none := by
  rw [attemptAttrTagAt.eq_def]
  split
  · next heq =>
      have ht := List.tail_eq_of_cons_eq heq
      rw [ht] at h
      rw [h]
      simp
  · rfl

theorem scanTagGo_single_lt (tag : List Char) (mark : String) (fuel : Nat)
    (rest : List Char) (i : Nat)
    (h0 : tag.isPrefixOf rest = false) (hrest : ∀ c ∈ rest, c ≠ '<') :
    scanTagGo tag mark fuel ('<' :: rest) i = [] := by
  cases fuel with
  | zero => rfl
  | succ fuel =>
    rw [scanTagGo]
    rw [attemptTagAt_none_tag_mismatch tag rest h0]
    exact scanTagGo_no_lt tag mark fuel rest (i + 1) hrest

theorem scanAttrTagGo_single_lt (name attrLit : List Char) (fuel : Nat)
    (rest : List Char) (i : Nat)
    (h0 : name.isPrefixOf rest = false) (hrest : ∀ c ∈ rest, c ≠ '<') :
    scanAttrTagGo name attrLit fuel ('<' :: rest) i = [] := by
  cases fuel with
  | zero => rfl
  | succ fuel =>
    rw [scanAttrTagGo]
    rw [attemptAttrTagAt_none_tag_mismatch name attrLit rest h0]
    exact scanAttrTagGo_no_lt name attrLit fuel rest (i + 1) hrest

theorem afterChar_skip (target : Char) (xs ys : List Char)
    (h : ∀ c ∈ xs, c ≠ target) :
    afterChar target (xs ++ ys) = afterChar target ys := by
  induction xs with
  | nil => rfl
  | cons c cs ih =>
    rw [List.cons_append, afterChar]
    rw [if_neg (h c (List.mem_cons_self c cs))]
    exact ih (fun d hd => h d (List.mem_cons_of_mem c hd))

theorem afterChar_found (target : Char) (ys : List Char) :
    afterChar target (target :: ys) = some ys := by
  rw [afterChar, if_pos rfl]

theorem stripTagsGo_no_lt (fuel : Nat) (cs : List Char)
    (hf : cs.length ≤ fuel) (h : ∀ c ∈ cs, c ≠ '<') :
    stripTagsGo fuel cs = cs := by
  induction cs generalizing fuel with
  | nil => cases fuel <;> rfl
  | cons c rest ih =>
    cases fuel with
    | zero => simp at hf
    | succ fuel =>
      rw [stripTagsGo]
      rw [if_neg (h c (List.mem_cons_self c rest))]
      rw [ih fuel (by simpa using hf) (fun d hd => h d (List.mem_cons_of_mem c hd))]

theorem prefix_getElem?_eq {l₁ l₂ : List Char} (hp : l₁ <+: l₂) (j : Nat)
    (hj : j < l₁.length) : (l₂[j]? : Option Char) = l₁[j]? := by
  obtain ⟨t, rfl⟩ := hp
  exact List.getElem?_append_left hj

theorem firstAttrCapture_append_concrete (attrLit pre rest : List Char)
    (h : ∀ i, i < pre.length → ∃ j, j < attrLit.length ∧ j < (pre.drop i).length ∧
        (attrLit[j]? : Option Char) ≠ (pre.drop i)[j]?) :
    firstAttrCapture attrLit (pre ++ rest) = firstAttrCapture attrLit rest := by
  apply firstAttrCapture_append
  intro i hi
  obtain ⟨j, hj, hji, hne⟩ := h i hi
  by_contra hcon
  rw [Bool.not_eq_false] at hcon
  have hp := List.isPrefixOf_iff_prefix.mp hcon
  have h1 := prefix_getElem?_eq hp j hj
  rw [List.getElem?_append_left hji] at h1
  exact hne h1.symm

theorem firstAttrCapture_append_key (attrLit K rest : List Char)
    (hpat4 : 4 < attrLit.length)
    (hdash : attrLit.get ⟨4, hpat4⟩ = '-')
    (hpatq : ∀ (j : Nat) (hjp : j < attrLit.length), j ≤ 4 → attrLit.get ⟨j, hjp⟩ ≠ '"')
    (hK : ∀ c ∈ K, safeKeyChar c = true)
    (hrest : ∃ r2, rest = '"' :: r2) :
    firstAttrCapture attrLit (K ++ rest) = firstAttrCapture attrLit rest :=
  firstAttrCapture_append attrLit K rest
    (fun i hi => pat_not_prefixOf_in_safeKey attrLit K rest hpat4 hdash hpatq hK hrest i hi)

theorem capture_blockKey (key : String) (Tp : List Char)
    (hkey : ∀ c ∈ key.data, safeKeyChar c = true) :
    firstAttrCapture "data-block-key=\"".data
      ("<p data-block-key=\"".data ++ key.data ++
        "\" data-block-style=\"normal\" data-markdefs=\"%5B%5D\">".data ++ Tp) =
      some key := by
  have hf1 : "<p data-block-key=\"".data = ['<', 'p', ' '] ++ "data-block-key=\"".data := rfl
  have hf2 : "\" data-block-style=\"normal\" data-markdefs=\"%5B%5D\">".data =
      '"' :: " data-block-style=\"normal\" data-markdefs=\"%5B%5D\">".data := rfl
  have hsh : "<p data-block-key=\"".data ++ key.data ++
      "\" data-block-style=\"normal\" data-markdefs=\"%5B%5D\">".data ++ Tp =
      ['<', 'p', ' '] ++ ("data-block-key=\"".data ++ (key.data ++
        ('"' :: (" data-block-style=\"normal\" data-markdefs=\"%5B%5D\">".data ++ Tp)))) := by
    rw [hf1, hf2]
    simp [List.append_assoc]
  rw [hsh]
  rw [firstAttrCapture_append_concrete _ ['<', 'p', ' '] _ (by decide)]
  rw [firstAttrCapture_at "data-block-key=\"".data key.data _ 'd' "ata-block-key=\"".data rfl
    (fun c hc => (safeKeyChar_ne c (hkey c hc)).2.2.1)]

theorem capture_blockStyle (key : String) (Tp : List Char)
    (hkey : ∀ c ∈ key.data, safeKeyChar c = true) :
    firstAttrCapture "data-block-style=\"".data
      ("<p data-block-key=\"".data ++ key.data ++
        "\" data-block-style=\"normal\" data-markdefs=\"%5B%5D\">".data ++ Tp) =
      some "normal" := by
  have hf2 : "\" data-block-style=\"normal\" data-markdefs=\"%5B%5D\">".data =
      '"' :: (' ' :: ("data-block-style=\"".data ++ ("normal".data ++
        ('"' :: (" data-markdefs=\"%5B%5D\">".data))))) := rfl
  have hsh : "<p data-block-key=\"".data ++ key.data ++
      "\" data-block-style=\"normal\" data-markdefs=\"%5B%5D\">".data ++ Tp =
      "<p data-block-key=\"".data ++ (key.data ++
        ('"' :: (' ' :: ("data-block-style=\"".data ++ ("normal".data ++
          ('"' :: (" data-markdefs=\"%5B%5D\">".data ++ Tp))))))) := by
    rw [hf2]
    simp [List.append_assoc]
  rw [hsh]
  rw [firstAttrCapture_append_concrete _ "<p data-block-key=\"".data _ (by decide)]
  rw [firstAttrCapture_append_key _ key.data _ (by decide) (by decide)
    (by decide) hkey ⟨_, rfl⟩]
  have hsh2 : ('"' :: (' ' :: ("data-block-style=\"".data ++ ("normal".data ++
      ('"' :: (" data-markdefs=\"%5B%5D\">".data ++ Tp))))) : List Char) =
      ['"', ' '] ++ ("data-block-style=\"".data ++ ("normal".data ++
        ('"' :: (" data-markdefs=\"%5B%5D\">".data ++ Tp)))) := rfl
  rw [hsh2]
  rw [firstAttrCapture_append_concrete _ ['"', ' '] _ (by decide)]
  rw [firstAttrCapture_at "data-block-style=\"".data "normal".data _ 'd'
    "ata-block-style=\"".data rfl (by decide)]

theorem capture_markdefs (key : String) (Tp : List Char)
    (hkey : ∀ c ∈ key.data, safeKeyChar c = true) :
    firstAttrCapture "data-markdefs=\"".data
      ("<p data-block-key=\"".data ++ key.data ++
        "\" data-block-style=\"normal\" data-markdefs=\"%5B%5D\">".data ++ Tp) =
      some "%5B%5D" := by
  have hf2 : "\" data-block-style=\"normal\" data-markdefs=\"%5B%5D\">".data =
      '"' :: ("\x20data-block-style=\"normal\" ".data ++ ("data-markdefs=\"".data ++
        ("%5B%5D".data ++ ('"' :: ['>'])))) := by decide
  have hsh : "<p data-block-key=\"".data ++ key.data ++
      "\" data-block-style=\"normal\" data-markdefs=\"%5B%5D\">".data ++ Tp =
      "<p data-block-key=\"".data ++ (key.data ++
        ('"' :: ("\x20data-block-style=\"normal\" ".data ++ ("data-markdefs=\"".data ++
          ("%5B%5D".data ++ ('"' :: ('>' :: Tp))))))) := by
    rw [hf2]
    simp [List.append_assoc]
  rw [hsh]
  rw [firstAttrCapture_append_concrete _ "<p data-block-key=\"".data _ (by decide)]
  rw [firstAttrCapture_append_key _ key.data _ (by decide) (by decide)
    (by decide) hkey ⟨_, rfl⟩]
  have hsh2 : ('"' :: ("\x20data-block-style=\"normal\" ".data ++ ("data-markdefs=\"".data ++
      ("%5B%5D".data ++ ('"' :: ('>' :: Tp))))) : List Char) =
      ('"' :: "\x20data-block-style=\"normal\" ".data) ++ ("data-markdefs=\"".data ++
        ("%5B%5D".data ++ ('"' :: ('>' :: Tp)))) := by
    simp
  rw [hsh2]
  rw [firstAttrCapture_append_concrete _ ('"' :: "\x20data-block-style=\"normal\" ".data) _
    (by decide)]
  rw [firstAttrCapture_at "data-markdefs=\"".data "%5B%5D".data _ 'd'
    "ata-markdefs=\"".data rfl (by decide)]

theorem extract_empty (key : String) (Tp : List Char)
    (hkey : ∀ c ∈ key.data, safeKeyChar c = true)
    (hTp : ∀ c ∈ Tp, c ≠ '<') :
    extractSegmentsFromHtml (String.mk ("<p data-block-key=\"".data ++ key.data ++
      "\" data-block-style=\"normal\" data-markdefs=\"%5B%5D\">".data ++ Tp)) = [] := by
  have hR : ∀ c ∈ ('p' :: (' ' :: ("data-block-key=\"".data ++ (key.data ++
      ("\" data-block-style=\"normal\" data-markdefs=\"%5B%5D\">".data ++ Tp))))), c ≠ '<' := by
    refine List.forall_mem_cons.mpr ⟨by decide, ?_⟩
    refine List.forall_mem_cons.mpr ⟨by decide, ?_⟩
    refine List.forall_mem_append.mpr ⟨by decide, ?_⟩
    refine List.forall_mem_append.mpr ⟨?_, ?_⟩
    · exact fun c hc => (safeKeyChar_ne c (hkey c hc)).1
    · exact List.forall_mem_append.mpr ⟨by decide, hTp⟩
  have hsh : "<p data-block-key=\"".data ++ key.data ++
      "\" data-block-style=\"normal\" data-markdefs=\"%5B%5D\">".data ++ Tp =
      '<' :: ('p' :: (' ' :: ("data-block-key=\"".data ++ (key.data ++
        ("\" data-block-style=\"normal\" data-markdefs=\"%5B%5D\">".data ++ Tp))))) := by
    have hf1 : "<p data-block-key=\"".data =
        '<' :: ('p' :: (' ' :: "data-block-key=\"".data)) := rfl
    rw [hf1]
    simp [List.append_assoc]
  rw [hsh]
  rw [extractSegmentsFromHtml]
  dsimp only
  generalize hgen : ('p' :: (' ' :: ("data-block-key=\"".data ++ (key.data ++
    ("\" data-block-style=\"normal\" data-markdefs=\"%5B%5D\">".data ++ Tp)))) : List Char) = R
  have hR2 : ∀ c ∈ R, c ≠ '<' := hgen ▸ hR
  have e1 : ("a".data : List Char) = ['a'] := rfl
  have e2 : ("strong".data : List Char) = 's' :: "trong".data := rfl
  have e3 : ("b".data : List Char) = ['b'] := rfl
  have e4 : ("em".data : List Char) = 'e' :: "m".data := rfl
  have e5 : ("i".data : List Char) = ['i'] := rfl
  have e6 : ("u".data : List Char) = ['u'] := rfl
  have e7 : ("s".data : List Char) = ['s'] := rfl
  have e8 : ("code".data : List Char) = 'c' :: "ode".data := rfl
  have e9 : ("primary".data : List Char) = 'p' :: ('r' :: "imary".data) := rfl
  have e10 : ("secondary".data : List Char) = 's' :: "econdary".data := rfl
  have e11 : ("span".data : List Char) = 's' :: "pan".data := rfl
  have h01 : ("a".data : List Char).isPrefixOf R = false := by
    rw [e1, ← hgen]; simp [List.isPrefixOf]
  have h02 : ("strong".data : List Char).isPrefixOf R = false := by
    rw [e2, ← hgen]; simp [List.isPrefixOf]
  have h03 : ("b".data : List Char).isPrefixOf R = false := by
    rw [e3, ← hgen]; simp [List.isPrefixOf]
  have h04 : ("em".data : List Char).isPrefixOf R = false := by
    rw [e4, ← hgen]; simp [List.isPrefixOf]
  have h05 : ("i".data : List Char).isPrefixOf R = false := by
    rw [e5, ← hgen]; simp [List.isPrefixOf]
  have h06 : ("u".data : List Char).isPrefixOf R = false := by
    rw [e6, ← hgen]; simp [List.isPrefixOf]
  have h07 : ("s".data : List Char).isPrefixOf R = false := by
    rw [e7, ← hgen]; simp [List.isPrefixOf]
  have h08 : ("code".data : List Char).isPrefixOf R = false := by
    rw [e8, ← hgen]; simp [List.isPrefixOf]
  have h09 : ("primary".data : List Char).isPrefixOf R = false := by
    rw [e9, ← hgen]; simp [List.isPrefixOf]
  have h10 : ("secondary".data : List Char).isPrefixOf R = false := by
    rw [e10, ← hgen]; simp [List.isPrefixOf]
  have h11 : ("span".data : List Char).isPrefixOf R = false := by
    rw [e11, ← hgen]; simp [List.isPrefixOf]
  simp only [HTML_TO_MARK_MAP, List.flatMap_cons, List.flatMap_nil]
  rw [scanAttrTagGo_single_lt _ _ _ _ _ h01 hR2]
  rw [scanAttrTagGo_single_lt _ _ _ _ _ h11 hR2]
  rw [scanTagGo_single_lt _ _ _ _ _ h02 hR2]
  rw [scanTagGo_single_lt _ _ _ _ _ h03 hR2]
  rw [scanTagGo_single_lt _ _ _ _ _ h04 hR2]
  rw [scanTagGo_single_lt _ _ _ _ _ h05 hR2]
  rw [scanTagGo_single_lt _ _ _ _ _ h06 hR2]
  rw [scanTagGo_single_lt _ _ _ _ _ h07 hR2]
  rw [scanTagGo_single_lt _ _ _ _ _ h08 hR2]
  rw [scanTagGo_single_lt _ _ _ _ _ h09 hR2]
  rw [scanTagGo_single_lt _ _ _ _ _ h10 hR2]
  rfl

theorem strip_plainText (key : String) (Tp : List Char)
    (hkey : ∀ c ∈ key.data, safeKeyChar c = true)
    (hTp : ∀ c ∈ Tp, c ≠ '<') :
    stripTags (String.mk ("<p data-block-key=\"".data ++ key.data ++
      "\" data-block-style=\"normal\" data-markdefs=\"%5B%5D\">".data ++ Tp)) =
      String.mk Tp := by
  have hmid : ∀ c ∈ ('p' :: (' ' :: ("data-block-key=\"".data ++ (key.data ++
      "\" data-block-style=\"normal\" data-markdefs=\"%5B%5D\"".data)))), c ≠ '>' := by
    refine List.forall_mem_cons.mpr ⟨by decide, ?_⟩
    refine List.forall_mem_cons.mpr ⟨by decide, ?_⟩
    refine List.forall_mem_append.mpr ⟨by decide, ?_⟩
    refine List.forall_mem_append.mpr ⟨?_, by decide⟩
    exact fun c hc => (safeKeyChar_ne c (hkey c hc)).2.1
  have hsh : "<p data-block-key=\"".data ++ key.data ++
      "\" data-block-style=\"normal\" data-markdefs=\"%5B%5D\">".data ++ Tp =
      '<' :: (('p' :: (' ' :: ("data-block-key=\"".data ++ (key.data ++
        "\" data-block-style=\"normal\" data-markdefs=\"%5B%5D\"".data)))) ++ ('>' :: Tp)) := by
    have hf1 : "<p data-block-key=\"".data =
        '<' :: ('p' :: (' ' :: "data-block-key=\"".data)) := rfl
    have hf2 : "\" data-block-style=\"normal\" data-markdefs=\"%5B%5D\">".data =
        "\" data-block-style=\"normal\" data-markdefs=\"%5B%5D\"".data ++ ['>'] := by decide
    rw [hf1, hf2]
    simp [List.append_assoc]
  rw [stripTags]
  dsimp only
  rw [hsh]
  rw [List.length_cons]
  rw [stripTagsGo]
  rw [if_pos rfl]
  rw [afterChar_skip '>' _ _ hmid, afterChar_found]
  dsimp only
  have hle : Tp.length ≤ (('p' :: (' ' :: ("data-block-key=\"".data ++ (key.data ++
      "\" data-block-style=\"normal\" data-markdefs=\"%5B%5D\"".data)))) ++ ('>' :: Tp)).length := by
    simp [List.length_append]
    omega
  rw [stripTagsGo_no_lt _ Tp hle hTp]

theorem not_prefixOf_of_getElem (pat X : List Char) (j : Nat) (a b : Char)
    (hpj : (pat[j]? : Option Char) = some a) (hxj : (X[j]? : Option Char) = some b)
    (hab : a ≠ b) : pat.isPrefixOf X = false := by
  by_contra hcon
  rw [Bool.not_eq_false] at hcon
  have hp := List.isPrefixOf_iff_prefix.mp hcon
  have hj : j < pat.length := by
    by_contra hge
    rw [List.getElem?_eq_none (by omega)] at hpj
    exact absurd hpj (by simp)
  have := prefix_getElem?_eq hp j hj
  rw [hxj, hpj] at this
  exact hab (Option.some.inj this).symm

theorem conv_data (key : String) (pairs : List (String × String))
    (htext : ∀ p ∈ pairs, ∀ c ∈ (p.2 : String).data, safeTextChar c = true) :
    (convertBlockToHtml (mkUnmarkedBlock key pairs)).data =
      "<p data-block-key=\"".data ++ key.data ++
        "\" data-block-style=\"normal\" data-markdefs=\"%5B%5D\">".data ++
        (String.join (pairs.map (fun p => p.2))).data ++ "</p>".data := by
  have h1 : convertBlockToHtml (mkUnmarkedBlock key pairs) =
      "<" ++ "p" ++ " data-block-key=\"" ++ key ++ "\" data-block-style=\"" ++ "normal" ++
        "\" data-markdefs=\"" ++ "%5B%5D" ++ "\">" ++
        String.join ((pairs.map mkUnmarkedSpan).map (renderSpanHtml [])) ++
        "</" ++ "p" ++ ">" := rfl
  have hinner : String.join ((pairs.map mkUnmarkedSpan).map (renderSpanHtml [])) =
      String.join (pairs.map (fun p => p.2)) := by
    rw [List.map_map]
    congr 1
    apply List.map_congr_left
    intro p hp
    rw [Function.comp_apply, renderSpanHtml_unmarked]
    exact escapeHtml_safe _ (htext p hp)
  rw [h1, hinner]
  have hd1 : ("<p data-block-key=\"".data : List Char) =
      "<".data ++ ("p".data ++ " data-block-key=\"".data) := by decide
  have hd2 : ("\" data-block-style=\"normal\" data-markdefs=\"%5B%5D\">".data : List Char) =
      "\" data-block-style=\"".data ++ ("normal".data ++
        ("\" data-markdefs=\"".data ++ ("%5B%5D".data ++ "\">".data))) := by decide
  have hd3 : ("</p>".data : List Char) = "</".data ++ ("p".data ++ ">".data) := by decide
  rw [hd1, hd2, hd3]
  simp [String.data_append, List.append_assoc]

theorem c2_unmarked_round_trip (key : String) (pairs : List (String × String))
    (counter : Nat)
    (hkey : ∀ c ∈ key.data, safeKeyChar c = true)
    (htext : ∀ p ∈ pairs, ∀ c ∈ (p.2 : String).data, safeTextChar c = true)
    (hnb : jsTrim (String.join (pairs.map (fun p => p.2))) ≠ "") :
    parseHtmlToBlockStructure (convertBlockToHtml (mkUnmarkedBlock key pairs))
      (mkUnmarkedBlock key pairs) counter =
      (.obj [("_type", .str BLOCK_CONTENT_TYPE), ("_key", .str key),
             ("style", .str "normal"), ("markDefs", .arr []),
             ("children", .arr [spanToJValue
               ⟨uuidKey counter, String.join (pairs.map (fun p => p.2)), []⟩])],
       counter + 1) := by
  have hT : ∀ c ∈ (String.join (pairs.map (fun p => p.2))).data, safeTextChar c = true := by
    intro c hc
    rw [join_data, List.mem_flatten] at hc
    obtain ⟨l, hl, hcl⟩ := hc
    obtain ⟨s, hs, rfl⟩ := List.mem_map.mp hl
    obtain ⟨p, hp, rfl⟩ := List.mem_map.mp hs
    exact htext p hp c hcl
  have hTlt : ∀ c ∈ (String.join (pairs.map (fun p => p.2))).data, c ≠ '<' :=
    fun c hc => (safeTextChar_ne c (hT c hc)).1
  have hstrip : stripPEdges (convertBlockToHtml (mkUnmarkedBlock key pairs)) =
      String.mk ("<p data-block-key=\"".data ++ key.data ++
        "\" data-block-style=\"normal\" data-markdefs=\"%5B%5D\">".data ++
        (String.join (pairs.map (fun p => p.2))).data) := by
    rw [stripPEdges]
    dsimp only
    rw [conv_data key pairs htext]
    have hpre : (['<', 'p', '>'] : List Char).isPrefixOf
        ("<p data-block-key=\"".data ++ key.data ++
          "\" data-block-style=\"normal\" data-markdefs=\"%5B%5D\">".data ++
          (String.join (pairs.map (fun p => p.2))).data ++ "</p>".data) = false := by
      apply not_prefixOf_of_getElem _ _ 2 '>' ' '
      · decide
      · rw [List.append_assoc, List.append_assoc, List.append_assoc]
        rw [List.getElem?_append_left (by decide : (2 : Nat) < "<p data-block-key=\"".data.length)]
        decide
      · decide
    rw [hpre, if_neg (by decide : ¬(false = true))]
    have hsuf : (['<', '/', 'p', '>'] : List Char).isSuffixOf
        ("<p data-block-key=\"".data ++ key.data ++
          "\" data-block-style=\"normal\" data-markdefs=\"%5B%5D\">".data ++
          (String.join (pairs.map (fun p => p.2))).data ++ "</p>".data) = true := by
      rw [List.isSuffixOf_iff_suffix]
      have hf4 : ("</p>".data : List Char) = ['<', '/', 'p', '>'] := by decide
      rw [hf4]
      exact List.suffix_append _ _
    rw [hsuf, if_pos (show true = true from rfl)]
    have hf4 : ("</p>".data : List Char) = ['<', '/', 'p', '>'] := by decide
    rw [hf4]
    have hlen : ("<p data-block-key=\"".data ++ key.data ++
        "\" data-block-style=\"normal\" data-markdefs=\"%5B%5D\">".data ++
        (String.join (pairs.map (fun p => p.2))).data ++
        ['<', '/', 'p', '>']).length - 4 =
        ("<p data-block-key=\"".data ++ key.data ++
          "\" data-block-style=\"normal\" data-markdefs=\"%5B%5D\">".data ++
          (String.join (pairs.map (fun p => p.2))).data).length := by
      simp [List.length_append]
      omega
    rw [hlen]
    rw [List.take_left]
  have hmk : mkUnmarkedBlock key pairs =
      JValue.obj [("_type", .str BLOCK_CONTENT_TYPE), ("_key", .str key),
        ("style", .str "normal"), ("markDefs", .arr []),
        ("children", .arr (pairs.map mkUnmarkedSpan))] := rfl
  rw [hmk] at hstrip
  rw [hmk]
  rw [parseHtmlToBlockStructure.eq_1]
  dsimp only
  rw [hstrip]
  dsimp only
  rw [capture_blockKey key _ hkey, capture_blockStyle key _ hkey, capture_markdefs key _ hkey]
  dsimp only
  rw [parseHtmlToSpans]
  rw [extract_empty key _ hkey hTlt]
  dsimp only
  rw [strip_plainText key _ hkey hTlt]
  rw [if_pos (show jsTrim (String.mk
    (String.join (pairs.map (fun p => p.2))).data) ≠ "" from hnb)]
  dsimp only
  rfl

/-- Claim C2, counterexample: a block whose marked spans are separated by a
whitespace-only unmarked span does not round-trip: the decoder filters
whitespace-only runs, so the concatenated span text changes from `"a b"` to
`"ab"` (the spans around it are then merged). -/
theorem c2_counterexample :
    blockJoinedText c2Block = "a b" ∧
    blockJoinedText (parseHtmlToBlockStructure (convertBlockToHtml c2Block) c2Block 0).1 =
      "ab" ∧ ("a b" : String) ≠ "ab" :=
  ⟨rfl, rfl, by decide⟩

/-- Claim C2, witness: the amended round-trip theorem at a concrete block. -/
theorem c2_witness :
    parseHtmlToBlockStructure
      (convertBlockToHtml (mkUnmarkedBlock "k1" [("s1", "Hello"), ("s2", " world")]))
      (mkUnmarkedBlock "k1" [("s1", "Hello"), ("s2", " world")]) 0 =
      (.obj [("_type", .str BLOCK_CONTENT_TYPE), ("_key", .str "k1"),
             ("style", .str "normal"), ("markDefs", .arr []),
             ("children", .arr [spanToJValue ⟨uuidKey 0, "Hello world", []⟩])], 1) := by
  have h := c2_unmarked_round_trip "k1" [("s1", "Hello"), ("s2", " world")] 0
    (by decide) (by decide) (by decide)
  simpa using h
